import Mathlib

/-!
Verification of the NanoGUI screen event-dispatch core (src/screen.cpp) and the
input-routing registry (WindowHandlerConstants).

The widget tree itself is an external collaborator of the code under study: widgets
are modelled as an abstract type `W` with decidable equality, and the polymorphic
facts the screen code reads off a widget (its popup-owner back-reference, its
parent link, whether it is a `Window`, its `modal` flag, hit tests, event handlers)
are supplied as function parameters, exactly in the places where `screen.cpp`
performs the corresponding virtual call or `dynamic_cast`.

Machine integers from the C++ are modelled as `Int`/`Nat`; the `double` timestamps
and coordinates that the code merely stores or passes through are modelled as `Int`
(no arithmetic facts about them are claimed).  The platform-conditional division of
coordinates by the pixel ratio (`#if defined(_WIN32) || defined(__linux__)`) is the
configuration in which it is absent (the macOS build); none of the verified claims
depends on that scaling.
-/

namespace NanoGui

section MoveToFront

variable {W : Type} [DecidableEq W]

/-- One `erase(remove(...)) ; push_back(...)` step of `Screen::moveWindowToFront`:
every occurrence of `z` is removed from the child list and `z` is appended at the
end (the front of the paint order). -/
def pushToEnd (z : W) (cs : List W) : List W :=
  cs.filter (fun x => x != z) ++ [z]

/-- The `baseIndex` scan of `Screen::moveWindowToFront`: iterate over all indices,
remembering the last index whose element equals `w` (`0` if none does). -/
def baseIdxGo (w : W) : List W → Nat → Nat → Nat
  | [], _, b => b
  | x :: t, i, b => baseIdxGo w t (i + 1) (if x = w then i else b)

/-- `baseIndex` for the whole list, starting the scan at index `0`. -/
def baseIndex (w : W) (cs : List W) : Nat :=
  baseIdxGo w cs 0 0

/-- The popup scan of `Screen::moveWindowToFront`: find the first element that is
a `Popup` whose `parentWindow()` equals `w` and whose index is below `base`.
A widget `x` is a popup owned by `o` exactly when `owner x = some o`. -/
def scanGo (owner : W → Option W) (w : W) (base : Nat) : List W → Nat → Option W
  | [], _ => none
  | x :: t, i => if owner x = some w ∧ i < base then some x else scanGo owner w base t (i + 1)

/-- The full popup scan over the current child list. -/
def scanPopup (owner : W → Option W) (w : W) (cs : List W) : Option W :=
  scanGo owner w (baseIndex w cs) cs 0

/-- The brute-force topological-sort loop of `Screen::moveWindowToFront` (the
`do { ... } while (changed)` part), with explicit fuel.  On a scan hit the code
recursively calls `moveWindowToFront` on the found popup — which erases that popup,
appends it, and runs its own loop — and then restarts the outer scan from scratch.
`none` means the fuel ran out before the loop reached a fixed point. -/
def mwfGo (owner : W → Option W) : Nat → List W → W → Option (List W)
  | 0, _, _ => none
  | Nat.succ f, cs, w =>
    match scanPopup owner w cs with
    | none => some cs
    | some pw =>
      match mwfGo owner f (pushToEnd pw cs) pw with
      | none => none
      | some cs2 => mwfGo owner f cs2 w

/-- `Screen::moveWindowToFront(window)`: move `window` to the end of the child
list, then run the popup-reordering loop. -/
def moveWindowToFront (owner : W → Option W) (fuel : Nat) (cs : List W) (w : W) :
    Option (List W) :=
  mwfGo owner fuel (pushToEnd w cs) w

/-- A sequence of `moveWindowToFront` calls, all run with the same fuel. -/
def runSeq (owner : W → Option W) (fuel : Nat) : List W → List W → Option (List W)
  | [], cs => some cs
  | t :: ts, cs =>
    match moveWindowToFront owner fuel cs t with
    | none => none
    | some cs2 => runSeq owner fuel ts cs2

/-- The z-order invariant of the spec: every popup present in the child list whose
owning window is also present sits at a strictly larger index than its owner. -/
def popupInv (owner : W → Option W) (cs : List W) : Prop :=
  ∀ P ∈ cs, ∀ O ∈ cs, owner P = some O → cs.indexOf O < cs.indexOf P

instance (owner : W → Option W) (cs : List W) : Decidable (popupInv owner cs) := by
  unfold popupInv; infer_instance

/-- The invariant with an excuse set `S`: pairs whose owner lies in `S` are exempt.
This is the induction form used while the reordering loop is running, recording
which windows still have displaced popups. -/
def popupInvExc (owner : W → Option W) (cs : List W) (S : W → Prop) : Prop :=
  ∀ P ∈ cs, ∀ O ∈ cs, owner P = some O → ¬ S O → cs.indexOf O < cs.indexOf P

theorem popupInvExc_mono {owner : W → Option W} {cs : List W} {S T : W → Prop}
    (hST : ∀ x, S x → T x) (h : popupInvExc owner cs S) : popupInvExc owner cs T :=
  fun P hP O hO hPO hT => h P hP O hO hPO (fun hS => hT (hST O hS))

theorem popupInv_iff_exc {owner : W → Option W} {cs : List W} :
    popupInv owner cs ↔ popupInvExc owner cs (fun _ => False) := by
  constructor
  · exact fun h P hP O hO hPO _ => h P hP O hO hPO
  · exact fun h P hP O hO hPO => h P hP O hO hPO (fun hF => hF)

theorem mem_pushToEnd {z x : W} {cs : List W} :
    x ∈ pushToEnd z cs ↔ (x ∈ cs ∧ x ≠ z) ∨ x = z := by
  simp [pushToEnd, List.mem_filter, List.mem_append]

theorem self_mem_pushToEnd (z : W) (cs : List W) : z ∈ pushToEnd z cs :=
  mem_pushToEnd.2 (Or.inr rfl)

theorem mem_pushToEnd_of_mem {z x : W} {cs : List W} (h : x ∈ cs) : x ∈ pushToEnd z cs := by
  by_cases hxz : x = z
  · exact mem_pushToEnd.2 (Or.inr hxz)
  · exact mem_pushToEnd.2 (Or.inl ⟨h, hxz⟩)

theorem mem_of_mem_pushToEnd {z x : W} {cs : List W} (hz : z ∈ cs)
    (h : x ∈ pushToEnd z cs) : x ∈ cs := by
  rcases mem_pushToEnd.1 h with ⟨h1, _⟩ | h1
  · exact h1
  · exact h1 ▸ hz

theorem nodup_pushToEnd {cs : List W} (z : W) (h : cs.Nodup) : (pushToEnd z cs).Nodup := by
  refine List.Nodup.append (h.filter _) (List.nodup_singleton z) ?_
  intro x hx hx1
  rcases List.mem_filter.1 hx with ⟨_, hne⟩
  rcases List.mem_singleton.1 hx1 with rfl
  simp at hne

theorem perm_pushToEnd {cs : List W} {z : W} (hmem : z ∈ cs) (h : cs.Nodup) :
    List.Perm (pushToEnd z cs) cs := by
  have h1 : cs.filter (fun x => x != z) = cs.erase z := (h.erase_eq_filter z).symm
  have h2 : List.Perm (pushToEnd z cs) (z :: cs.erase z) := by
    rw [pushToEnd, h1]; exact List.perm_append_singleton z (cs.erase z)
  exact h2.trans (List.perm_cons_erase hmem).symm

theorem indexOf_filter_lt {p : W → Bool} :
    ∀ {cs : List W} {a b : W}, a ∈ cs → b ∈ cs → p a = true → p b = true →
      cs.indexOf a < cs.indexOf b →
      (cs.filter p).indexOf a < (cs.filter p).indexOf b := by
  intro cs
  induction cs with
  | nil => intro a b ha; cases ha
  | cons h t ih =>
    intro a b ha hb hpa hpb hlt
    by_cases hha : h = a
    · subst hha
      have hba : b ≠ h := by
        intro hbh; subst hbh
        simp [List.indexOf_cons_self] at hlt
      have hbmem : b ∈ t := by
        rcases List.mem_cons.1 hb with hb1 | hb1
        · exact absurd hb1 hba
        · exact hb1
      rw [List.filter_cons_of_pos hpa]
      rw [List.indexOf_cons_self]
      rw [List.indexOf_cons_ne _ (Ne.symm hba)]
      exact Nat.succ_pos _
    · by_cases hhb : h = b
      · subst hhb
        rw [List.indexOf_cons_self] at hlt
        exact absurd hlt (Nat.not_lt_zero _)
      · have hamem : a ∈ t := by
          rcases List.mem_cons.1 ha with h1 | h1
          · exact absurd h1.symm hha
          · exact h1
        have hbmem : b ∈ t := by
          rcases List.mem_cons.1 hb with h1 | h1
          · exact absurd h1.symm hhb
          · exact h1
        rw [List.indexOf_cons_ne _ hha, List.indexOf_cons_ne _ hhb] at hlt
        have hlt2 : t.indexOf a < t.indexOf b := Nat.lt_of_succ_lt_succ hlt
        by_cases hph : p h = true
        · rw [List.filter_cons_of_pos hph]
          rw [List.indexOf_cons_ne _ hha, List.indexOf_cons_ne _ hhb]
          exact Nat.succ_lt_succ (ih hamem hbmem hpa hpb hlt2)
        · rw [List.filter_cons_of_neg (by simpa using hph)]
          exact ih hamem hbmem hpa hpb hlt2

theorem indexOf_filter_lt_iff {p : W → Bool} {cs : List W} {a b : W}
    (ha : a ∈ cs) (hb : b ∈ cs) (hpa : p a = true) (hpb : p b = true) :
    (cs.filter p).indexOf a < (cs.filter p).indexOf b ↔ cs.indexOf a < cs.indexOf b := by
  constructor
  · intro hlt
    rcases Nat.lt_trichotomy (cs.indexOf a) (cs.indexOf b) with h1 | h1 | h1
    · exact h1
    · have : a = b := (List.indexOf_inj ha hb).1 h1
      subst this
      exact absurd hlt (Nat.lt_irrefl _)
    · have := indexOf_filter_lt hb ha hpb hpa h1
      omega
  · exact indexOf_filter_lt ha hb hpa hpb

theorem indexOf_pushToEnd_of_ne {z a : W} {cs : List W} (ha : a ∈ cs) (haz : a ≠ z) :
    (pushToEnd z cs).indexOf a = (cs.filter (fun x => x != z)).indexOf a := by
  have hmem : a ∈ cs.filter (fun x => x != z) :=
    List.mem_filter.2 ⟨ha, by simpa using haz⟩
  exact List.indexOf_append_of_mem hmem

theorem indexOf_pushToEnd_self (z : W) (cs : List W) :
    (pushToEnd z cs).indexOf z = (cs.filter (fun x => x != z)).length := by
  have hnm : z ∉ cs.filter (fun x => x != z) := by
    intro hmem
    rcases List.mem_filter.1 hmem with ⟨_, hne⟩
    simp at hne
  rw [pushToEnd, List.indexOf_append_of_not_mem hnm]
  simp [List.indexOf_cons_self]

theorem indexOf_pushToEnd_lt_self {z a : W} {cs : List W} (ha : a ∈ cs) (haz : a ≠ z) :
    (pushToEnd z cs).indexOf a < (pushToEnd z cs).indexOf z := by
  rw [indexOf_pushToEnd_of_ne ha haz, indexOf_pushToEnd_self]
  exact List.indexOf_lt_length.2 (List.mem_filter.2 ⟨ha, by simpa using haz⟩)

/-- How strict index order changes under one `pushToEnd` step: the pushed element
moves after everything else, and all other relative orders are preserved. -/
theorem pushToEnd_lt_iff {z a b : W} {cs : List W} (ha : a ∈ cs) (hb : b ∈ cs)
    (hab : a ≠ b) :
    (pushToEnd z cs).indexOf a < (pushToEnd z cs).indexOf b ↔
      (b = z ∧ a ≠ z) ∨ (a ≠ z ∧ b ≠ z ∧ cs.indexOf a < cs.indexOf b) := by
  by_cases haz : a = z
  · subst haz
    have hbz : b ≠ a := fun h => hab h.symm
    constructor
    · intro hlt
      have := indexOf_pushToEnd_lt_self hb hbz
      omega
    · intro h
      rcases h with ⟨_, h2⟩ | ⟨h1, _⟩
      · exact absurd rfl h2
      · exact absurd rfl h1
  · by_cases hbz : b = z
    · subst hbz
      constructor
      · intro _
        exact Or.inl ⟨rfl, haz⟩
      · intro _
        exact indexOf_pushToEnd_lt_self ha haz
    · rw [indexOf_pushToEnd_of_ne ha haz, indexOf_pushToEnd_of_ne hb hbz]
      rw [indexOf_filter_lt_iff ha hb (by simpa using haz) (by simpa using hbz)]
      constructor
      · intro h; exact Or.inr ⟨haz, hbz, h⟩
      · intro h
        rcases h with ⟨h1, _⟩ | ⟨_, _, h3⟩
        · exact absurd h1 hbz
        · exact h3

theorem baseIdxGo_not_mem {w : W} : ∀ {cs : List W} (i b : Nat), w ∉ cs →
    baseIdxGo w cs i b = b := by
  intro cs
  induction cs with
  | nil => intro i b _; rfl
  | cons x t ih =>
    intro i b hnm
    have hx : x ≠ w := fun h => hnm (h ▸ List.mem_cons_self x t)
    have ht : w ∉ t := fun h => hnm (List.mem_cons_of_mem x h)
    simp only [baseIdxGo, if_neg hx]
    exact ih _ _ ht

theorem baseIdxGo_eq {w : W} : ∀ {cs : List W} (i b : Nat), w ∈ cs → cs.Nodup →
    baseIdxGo w cs i b = i + cs.indexOf w := by
  intro cs
  induction cs with
  | nil => intro i b h; cases h
  | cons x t ih =>
    intro i b hmem hnd
    by_cases hx : x = w
    · subst hx
      have hnt : x ∉ t := (List.nodup_cons.1 hnd).1
      simp only [baseIdxGo, if_pos rfl]
      rw [baseIdxGo_not_mem _ _ hnt, List.indexOf_cons_self]
      simp
    · have hmt : w ∈ t := by
        rcases List.mem_cons.1 hmem with h1 | h1
        · exact absurd h1.symm hx
        · exact h1
      simp only [baseIdxGo, if_neg hx]
      rw [ih _ _ hmt (List.nodup_cons.1 hnd).2, List.indexOf_cons_ne _ hx]
      omega

theorem baseIndex_eq_indexOf {w : W} {cs : List W} (hmem : w ∈ cs) (hnd : cs.Nodup) :
    baseIndex w cs = cs.indexOf w := by
  rw [baseIndex, baseIdxGo_eq 0 0 hmem hnd]
  omega

theorem indexOf_le_of_get? {a : W} : ∀ {cs : List W} {j : Nat}, cs.get? j = some a →
    cs.indexOf a ≤ j := by
  intro cs
  induction cs with
  | nil => intro j h; simp [List.get?] at h
  | cons x t ih =>
    intro j h
    cases j with
    | zero =>
      simp only [List.get?] at h
      rcases Option.some.injEq _ _ ▸ h with rfl
      injection h with h2
      rw [h2, List.indexOf_cons_self]
    | succ j2 =>
      simp only [List.get?] at h
      by_cases hx : x = a
      · rw [hx, List.indexOf_cons_self]; omega
      · rw [List.indexOf_cons_ne _ hx]
        exact Nat.succ_le_succ (ih h)

theorem mem_of_get? {a : W} : ∀ {cs : List W} {j : Nat}, cs.get? j = some a → a ∈ cs := by
  intro cs
  induction cs with
  | nil => intro j h; simp [List.get?] at h
  | cons x t ih =>
    intro j h
    cases j with
    | zero =>
      simp only [List.get?] at h
      injection h with h2
      exact h2 ▸ List.mem_cons_self x t
    | succ j2 =>
      simp only [List.get?] at h
      exact List.mem_cons_of_mem x (ih h)

theorem scanGo_eq_none {owner : W → Option W} {w : W} {base : Nat} :
    ∀ {cs : List W} {i : Nat}, scanGo owner w base cs i = none →
      ∀ j x, cs.get? j = some x → owner x = some w → ¬ (i + j < base) := by
  intro cs
  induction cs with
  | nil => intro i _ j x h; simp [List.get?] at h
  | cons y t ih =>
    intro i hscan j x hget hx
    by_cases hcond : owner y = some w ∧ i < base
    · simp only [scanGo, if_pos hcond] at hscan
      exact absurd hscan (by simp)
    · simp only [scanGo, if_neg hcond] at hscan
      cases j with
      | zero =>
        simp only [List.get?] at hget
        injection hget with h2
        subst h2
        intro hlt
        exact hcond ⟨hx, by omega⟩
      | succ j2 =>
        simp only [List.get?] at hget
        have := ih hscan j2 x hget hx
        omega

theorem scanGo_eq_some {owner : W → Option W} {w pw : W} {base : Nat} :
    ∀ {cs : List W} {i : Nat}, scanGo owner w base cs i = some pw →
      ∃ j, cs.get? j = some pw ∧ owner pw = some w ∧ i + j < base := by
  intro cs
  induction cs with
  | nil => intro i h; simp [scanGo] at h
  | cons y t ih =>
    intro i hscan
    by_cases hcond : owner y = some w ∧ i < base
    · simp only [scanGo, if_pos hcond] at hscan
      injection hscan with h2
      subst h2
      exact ⟨0, rfl, hcond.1, by omega⟩
    · simp only [scanGo, if_neg hcond] at hscan
      rcases ih hscan with ⟨j, hget, hx, hlt⟩
      exact ⟨j + 1, hget, hx, by omega⟩

/-- When the popup scan comes back empty, every popup owned by `w` that is present
sits strictly after `w`: a full clean scan is exactly the loop exit condition. -/
theorem scanPopup_none_sound {owner : W → Option W} {w : W} {cs : List W}
    (hnd : cs.Nodup) (hw : w ∈ cs) (hscan : scanPopup owner w cs = none) :
    ∀ P ∈ cs, owner P = some w → P ≠ w → cs.indexOf w < cs.indexOf P := by
  intro P hP hPw hPne
  have hbase : baseIndex w cs = cs.indexOf w := baseIndex_eq_indexOf hw hnd
  have hget : cs.get? (cs.indexOf P) = some P := List.indexOf_get? hP
  have := scanGo_eq_none hscan (cs.indexOf P) P hget hPw
  rw [hbase] at this
  have hne : cs.indexOf P ≠ cs.indexOf w := fun h => hPne ((List.indexOf_inj hP hw).1 h)
  omega

theorem scanPopup_some_sound {owner : W → Option W} {w pw : W} {cs : List W}
    (hnd : cs.Nodup) (hw : w ∈ cs) (hscan : scanPopup owner w cs = some pw) :
    pw ∈ cs ∧ owner pw = some w ∧ cs.indexOf pw < cs.indexOf w := by
  rcases scanGo_eq_some hscan with ⟨j, hget, hx, hlt⟩
  have hbase : baseIndex w cs = cs.indexOf w := baseIndex_eq_indexOf hw hnd
  rw [hbase] at hlt
  have hle := indexOf_le_of_get? hget
  exact ⟨mem_of_get? hget, hx, by omega⟩

theorem scanPopup_some_mem {owner : W → Option W} {w pw : W} {cs : List W}
    (hscan : scanPopup owner w cs = some pw) : pw ∈ cs ∧ owner pw = some w := by
  rcases scanGo_eq_some hscan with ⟨j, hget, hx, _⟩
  exact ⟨mem_of_get? hget, hx⟩

theorem mwfGo_succ_scan_none {owner : W → Option W} {f : Nat} {cs : List W} {w : W}
    (hscan : scanPopup owner w cs = none) : mwfGo owner (f + 1) cs w = some cs := by
  rw [mwfGo, hscan]

theorem mwfGo_succ_scan_some {owner : W → Option W} {f : Nat} {cs : List W} {w pw : W}
    (hscan : scanPopup owner w cs = some pw) :
    mwfGo owner (f + 1) cs w =
      (match mwfGo owner f (pushToEnd pw cs) pw with
        | none => none
        | some cs2 => mwfGo owner f cs2 w) := by
  rw [mwfGo, hscan]

theorem mwfGo_mono {owner : W → Option W} :
    ∀ {f : Nat} {cs : List W} {w : W} {r : List W},
      mwfGo owner f cs w = some r → mwfGo owner (f + 1) cs w = some r := by
  intro f
  induction f with
  | zero => intro cs w r h; simp [mwfGo] at h
  | succ f ih =>
    intro cs w r h
    cases hscan : scanPopup owner w cs with
    | none =>
      rw [mwfGo_succ_scan_none hscan] at h
      rw [mwfGo_succ_scan_none hscan]
      exact h
    | some pw =>
      rw [mwfGo_succ_scan_some hscan] at h
      rw [mwfGo_succ_scan_some hscan]
      cases hin : mwfGo owner f (pushToEnd pw cs) pw with
      | none => rw [hin] at h; cases h
      | some csB =>
        rw [hin] at h
        have h2 : mwfGo owner f csB w = some r := h
        rw [ih hin]
        exact ih h2

theorem mwfGo_mono_le {owner : W → Option W} {f g : Nat} {cs : List W} {w : W} {r : List W}
    (hfg : f ≤ g) (h : mwfGo owner f cs w = some r) : mwfGo owner g cs w = some r := by
  induction g with
  | zero =>
    have : f = 0 := Nat.le_zero.1 hfg
    subst this; exact h
  | succ g ih =>
    rcases Nat.lt_or_ge f (g + 1) with h1 | h1
    · exact mwfGo_mono (ih (Nat.lt_succ_iff.1 h1))
    · have : f = g + 1 := Nat.le_antisymm hfg h1
      subst this; exact h

theorem popupInvExc_pushToEnd {owner : W → Option W} {cs : List W} {T : W → Prop} {z : W}
    (hnd : cs.Nodup) (hE : popupInvExc owner cs T) :
    popupInvExc owner (pushToEnd z cs) (fun x => T x ∨ x = z) := by
  intro P hP O hO hPO hTO
  have hOT : ¬ T O := fun h => hTO (Or.inl h)
  have hOz : O ≠ z := fun h => hTO (Or.inr h)
  have hOcs : O ∈ cs := by
    rcases mem_pushToEnd.1 hO with ⟨h1, _⟩ | h1
    · exact h1
    · exact absurd h1 hOz
  by_cases hPz : P = z
  · subst hPz
    exact indexOf_pushToEnd_lt_self hOcs hOz
  · have hPcs : P ∈ cs := by
      rcases mem_pushToEnd.1 hP with ⟨h1, _⟩ | h1
      · exact h1
      · exact absurd h1 hPz
    have hcs : cs.indexOf O < cs.indexOf P := hE P hPcs O hOcs hPO hOT
    have hOP : O ≠ P := by
      intro h; subst h; exact Nat.lt_irrefl _ hcs
    exact (pushToEnd_lt_iff hOcs hPcs hOP).2 (Or.inr ⟨hOz, hPz, hcs⟩)

/-- Invariant preservation for the reordering loop: if all popup/owner pairs are in
order except possibly those owned by windows in the excuse set `S` or by `w`
itself, then whenever the loop finishes it has produced a permutation of its input
in which all pairs are in order except possibly those owned by `S`. -/
theorem mwfGo_pres {owner : W → Option W} (hself : ∀ x, owner x ≠ some x) :
    ∀ {f : Nat} {cs : List W} {w : W} {S : W → Prop} {cs2 : List W},
      cs.Nodup → w ∈ cs →
      popupInvExc owner cs (fun x => S x ∨ x = w) →
      mwfGo owner f cs w = some cs2 →
      List.Perm cs2 cs ∧ popupInvExc owner cs2 S := by
  intro f
  induction f with
  | zero => intro cs w S cs2 _ _ _ h; simp [mwfGo] at h
  | succ f ih =>
    intro cs w S cs2 hnd hw hE h
    cases hscan : scanPopup owner w cs with
    | none =>
      rw [mwfGo_succ_scan_none hscan] at h
      injection h with h2
      subst h2
      refine ⟨List.Perm.refl _, ?_⟩
      intro P hP O hO hPO hSO
      by_cases hOw : O = w
      · subst hOw
        have hPne : P ≠ O := by
          intro hPe; subst hPe; exact hself P hPO
        exact scanPopup_none_sound hnd hw hscan P hP hPO hPne
      · exact hE P hP O hO hPO (fun hor => by
          rcases hor with h1 | h1
          · exact hSO h1
          · exact hOw h1)
    | some pw =>
      rw [mwfGo_succ_scan_some hscan] at h
      obtain ⟨hpwmem, hpwown⟩ := scanPopup_some_mem hscan
      cases hin : mwfGo owner f (pushToEnd pw cs) pw with
      | none => rw [hin] at h; cases h
      | some csB =>
        rw [hin] at h
        have h2 : mwfGo owner f csB w = some cs2 := h
        have hnd1 : (pushToEnd pw cs).Nodup := nodup_pushToEnd pw hnd
        have hE1 : popupInvExc owner (pushToEnd pw cs)
            (fun x => (S x ∨ x = w) ∨ x = pw) :=
          popupInvExc_pushToEnd hnd hE
        obtain ⟨hpermB, hEB⟩ := ih hnd1 (self_mem_pushToEnd pw cs) hE1 hin
        have hndB : csB.Nodup := hpermB.symm.nodup hnd1
        have hwB : w ∈ csB := hpermB.mem_iff.2 (mem_pushToEnd_of_mem hw)
        obtain ⟨hperm2, hE2⟩ := ih hndB hwB hEB h2
        exact ⟨hperm2.trans (hpermB.trans (perm_pushToEnd hpwmem hnd)), hE2⟩

/-- A sequence of `pushToEnd` steps, each pushing an element of the current list
that satisfies `X`.  Every run of the reordering loop performs such a sequence. -/
inductive PushSeq (X : W → Prop) : List W → List W → Prop where
  | refl : ∀ cs, PushSeq X cs cs
  | step : ∀ {cs cs2 : List W} {z : W}, z ∈ cs → X z →
      PushSeq X (pushToEnd z cs) cs2 → PushSeq X cs cs2

theorem PushSeq_mono {X Y : W → Prop} (hXY : ∀ z, X z → Y z) :
    ∀ {cs cs2 : List W}, PushSeq X cs cs2 → PushSeq Y cs cs2 := by
  intro cs cs2 h
  induction h with
  | refl cs => exact PushSeq.refl cs
  | step hz hX _ ih => exact PushSeq.step hz (hXY _ hX) ih

theorem PushSeq_trans {X : W → Prop} :
    ∀ {cs1 cs2 cs3 : List W}, PushSeq X cs1 cs2 → PushSeq X cs2 cs3 → PushSeq X cs1 cs3 := by
  intro cs1 cs2 cs3 h12
  induction h12 with
  | refl cs => exact fun h => h
  | step hz hX _ ih => exact fun h23 => PushSeq.step hz hX (ih h23)

theorem PushSeq_subset {X : W → Prop} :
    ∀ {cs cs2 : List W}, PushSeq X cs cs2 → ∀ x ∈ cs2, x ∈ cs := by
  intro cs cs2 h
  induction h with
  | refl cs => exact fun x hx => hx
  | step hz _ _ ih => exact fun x hx => mem_of_mem_pushToEnd hz (ih x hx)

theorem PushSeq_mem {X : W → Prop} :
    ∀ {cs cs2 : List W}, PushSeq X cs cs2 → ∀ x ∈ cs, x ∈ cs2 := by
  intro cs cs2 h
  induction h with
  | refl cs => exact fun x hx => hx
  | step _ _ _ ih => exact fun x hx => ih x (mem_pushToEnd_of_mem hx)

theorem PushSeq_nodup {X : W → Prop} :
    ∀ {cs cs2 : List W}, PushSeq X cs cs2 → cs.Nodup → cs2.Nodup := by
  intro cs cs2 h
  induction h with
  | refl cs => exact fun h => h
  | step _ _ _ ih => exact fun hnd => ih (nodup_pushToEnd _ hnd)

theorem PushSeq_perm {X : W → Prop} :
    ∀ {cs cs2 : List W}, PushSeq X cs cs2 → cs.Nodup → List.Perm cs2 cs := by
  intro cs cs2 h
  induction h with
  | refl cs => exact fun _ => List.Perm.refl cs
  | step hz _ _ ih =>
    exact fun hnd => (ih (nodup_pushToEnd _ hnd)).trans (perm_pushToEnd hz hnd)

/-- The pushes performed by a run of `mwfGo owner f cs w` are all on elements
related to `w` by `R`, for any `R` closed under the owner links the loop follows. -/
theorem mwfGo_pushSeq {owner : W → Option W} {R : W → W → Prop}
    (h1 : ∀ pw w2, owner pw = some w2 → R pw w2)
    (h2 : ∀ z pw w2, R z pw → owner pw = some w2 → R z w2) :
    ∀ {f : Nat} {cs : List W} {w : W} {cs2 : List W},
      mwfGo owner f cs w = some cs2 → PushSeq (fun z => R z w) cs cs2 := by
  intro f
  induction f with
  | zero => intro cs w cs2 h; simp [mwfGo] at h
  | succ f ih =>
    intro cs w cs2 h
    cases hscan : scanPopup owner w cs with
    | none =>
      rw [mwfGo_succ_scan_none hscan] at h
      injection h with h3
      subst h3
      exact PushSeq.refl _
    | some pw =>
      rw [mwfGo_succ_scan_some hscan] at h
      obtain ⟨hpwmem, hpwown⟩ := scanPopup_some_mem hscan
      cases hin : mwfGo owner f (pushToEnd pw cs) pw with
      | none => rw [hin] at h; cases h
      | some csB =>
        rw [hin] at h
        have h3 : mwfGo owner f csB w = some cs2 := h
        have hinner : PushSeq (fun z => R z w) (pushToEnd pw cs) csB :=
          PushSeq_mono (fun z hz => h2 z pw w hz hpwown) (ih hin)
        have houter : PushSeq (fun z => R z w) csB cs2 := ih h3
        exact PushSeq.step hpwmem (h1 pw w hpwown) (PushSeq_trans hinner houter)

/-- The number of popups owned by `w` that are displaced (sit before `w`) in `cs` —
the measure that shrinks at every iteration of the reordering loop. -/
def dispCount (owner : W → Option W) (cs : List W) (w : W) : Nat :=
  cs.countP (fun p => decide (owner p = some w ∧ cs.indexOf p < cs.indexOf w))

theorem countP_strict {p : W → Bool} {a : W} :
    ∀ {l : List W}, a ∈ l → p a = true →
      l.countP (fun x => p x && !(x == a)) < l.countP p := by
  intro l
  induction l with
  | nil => intro h; cases h
  | cons h t ih =>
    intro hmem hpa
    rw [List.countP_cons, List.countP_cons]
    by_cases hha : h = a
    · subst hha
      have h1 : (p h && !(h == h)) = false := by simp
      have h2 : t.countP (fun x => p x && !(x == h)) ≤ t.countP p :=
        List.countP_mono_left (fun x _ hx => by
          rcases Bool.and_eq_true_iff.1 hx with ⟨hx1, _⟩
          exact hx1)
      rw [h1, hpa]
      simp only [Bool.false_eq_true, if_false, if_true]
      omega
    · have hmem2 : a ∈ t := by
        rcases List.mem_cons.1 hmem with h1 | h1
        · exact absurd h1.symm hha
        · exact h1
      have h1 : (p h && !(h == a)) = p h := by
        have : (h == a) = false := beq_eq_false_iff_ne.2 hha
        rw [this]
        simp
      rw [h1]
      have h3 := ih hmem2 hpa
      by_cases hph : p h = true
      · simp only [hph, if_true]
        omega
      · simp only [if_neg hph]
        omega

theorem dispCount_push_le {owner : W → Option W} {cs : List W} {w z : W}
    (hnd : cs.Nodup) (hw : w ∈ cs) (hz : z ∈ cs) (hzw : z ≠ w) :
    dispCount owner (pushToEnd z cs) w ≤ dispCount owner cs w := by
  have hstep1 : (pushToEnd z cs).countP
        (fun p => decide (owner p = some w ∧ (pushToEnd z cs).indexOf p < (pushToEnd z cs).indexOf w)) ≤
      (pushToEnd z cs).countP
        (fun p => decide (owner p = some w ∧ cs.indexOf p < cs.indexOf w)) := by
    refine List.countP_mono_left ?_
    intro p hp hpred
    rcases of_decide_eq_true hpred with ⟨hown, hlt⟩
    by_cases hpz : p = z
    · subst hpz
      have := indexOf_pushToEnd_lt_self hw (Ne.symm hzw)
      omega
    · have hpcs : p ∈ cs := mem_of_mem_pushToEnd hz hp
      have hpw : p ≠ w := by
        intro h; subst h; exact Nat.lt_irrefl _ hlt
      have := (pushToEnd_lt_iff hpcs hw hpw).1 hlt
      rcases this with ⟨h1, _⟩ | ⟨_, _, h3⟩
      · exact absurd h1.symm hzw
      · exact decide_eq_true ⟨hown, h3⟩
  have hstep2 : (pushToEnd z cs).countP
        (fun p => decide (owner p = some w ∧ cs.indexOf p < cs.indexOf w)) =
      cs.countP (fun p => decide (owner p = some w ∧ cs.indexOf p < cs.indexOf w)) :=
    (perm_pushToEnd hz hnd).countP_eq _
  unfold dispCount
  omega

theorem dispCount_push_lt {owner : W → Option W} {cs : List W} {w z : W}
    (hnd : cs.Nodup) (hw : w ∈ cs) (hz : z ∈ cs) (hzw : z ≠ w)
    (hown : owner z = some w) (hlt : cs.indexOf z < cs.indexOf w) :
    dispCount owner (pushToEnd z cs) w < dispCount owner cs w := by
  have hstep1 : (pushToEnd z cs).countP
        (fun p => decide (owner p = some w ∧ (pushToEnd z cs).indexOf p < (pushToEnd z cs).indexOf w)) ≤
      (pushToEnd z cs).countP
        (fun p => decide (owner p = some w ∧ cs.indexOf p < cs.indexOf w) && !(p == z)) := by
    refine List.countP_mono_left ?_
    intro p hp hpred
    rcases of_decide_eq_true hpred with ⟨hown2, hlt2⟩
    by_cases hpz : p = z
    · subst hpz
      have := indexOf_pushToEnd_lt_self hw (Ne.symm hzw)
      omega
    · have hpcs : p ∈ cs := mem_of_mem_pushToEnd hz hp
      have hpw : p ≠ w := by
        intro h; subst h; exact Nat.lt_irrefl _ hlt2
      have := (pushToEnd_lt_iff hpcs hw hpw).1 hlt2
      rcases this with ⟨h1, _⟩ | ⟨_, _, h3⟩
      · exact absurd h1.symm hzw
      · have hd : decide (owner p = some w ∧ cs.indexOf p < cs.indexOf w) = true :=
          decide_eq_true ⟨hown2, h3⟩
        have hb : (p == z) = false := beq_eq_false_iff_ne.2 hpz
        rw [hd, hb]
        rfl
  have hstep2 : (pushToEnd z cs).countP
        (fun p => decide (owner p = some w ∧ cs.indexOf p < cs.indexOf w) && !(p == z)) =
      cs.countP (fun p => decide (owner p = some w ∧ cs.indexOf p < cs.indexOf w) && !(p == z)) :=
    (perm_pushToEnd hz hnd).countP_eq _
  have hstep3 : cs.countP
        (fun p => decide (owner p = some w ∧ cs.indexOf p < cs.indexOf w) && !(p == z)) <
      cs.countP (fun p => decide (owner p = some w ∧ cs.indexOf p < cs.indexOf w)) :=
    countP_strict hz (decide_eq_true ⟨hown, hlt⟩)
  unfold dispCount
  omega

theorem dispCount_pushSeq_le {owner : W → Option W} {X : W → Prop} {w : W}
    (hXw : ∀ z, X z → z ≠ w) :
    ∀ {cs cs2 : List W}, PushSeq X cs cs2 → cs.Nodup → w ∈ cs →
      dispCount owner cs2 w ≤ dispCount owner cs w := by
  intro cs cs2 h
  induction h with
  | refl cs => exact fun _ _ => Nat.le_refl _
  | @step csA _ z hz hXz _ ih =>
    intro hnd hw
    have h1 := ih (nodup_pushToEnd _ hnd) (mem_pushToEnd_of_mem hw)
    have h2 : dispCount owner (pushToEnd z csA) w ≤ dispCount owner csA w :=
      dispCount_push_le hnd hw hz (hXw _ hXz)
    omega

/-- Termination of the reordering loop: under a well-founded popup-ownership
relation (witnessed by a rank that strictly drops from popup to owner) enough fuel
always exists.  Strong induction on the remaining rank headroom `n` (for the
recursive calls, which climb to strictly higher rank) and on the displaced-popup
count bound `k` (for the iterations of the rescanning loop). -/
theorem mwfGo_term {owner : W → Option W} {rank : W → Nat}
    (hrank : ∀ x y, owner x = some y → rank y < rank x) :
    ∀ n k (cs : List W) (w : W), cs.Nodup → w ∈ cs →
      (∀ x ∈ cs, rank x < rank w + n) → dispCount owner cs w < k →
      ∃ f cs2, mwfGo owner f cs w = some cs2 := by
  intro n
  induction n using Nat.strong_induction_on with
  | _ n ihn =>
    intro k
    induction k using Nat.strong_induction_on with
    | _ k ihk =>
      intro cs w hnd hw hbound hK
      cases hscan : scanPopup owner w cs with
      | none => exact ⟨1, cs, mwfGo_succ_scan_none hscan⟩
      | some pw =>
        obtain ⟨hpwmem, hpwown, hpwlt⟩ := scanPopup_some_sound hnd hw hscan
        have hrpw : rank w < rank pw := hrank pw w hpwown
        have hn1 : 1 ≤ n := by
          by_contra h0
          have hn0 : n = 0 := by omega
          have := hbound w hw
          omega
        have hnd1 : (pushToEnd pw cs).Nodup := nodup_pushToEnd pw hnd
        have hbound1 : ∀ x ∈ pushToEnd pw cs, rank x < rank pw + (n - 1) := by
          intro x hx
          have hxcs : x ∈ cs := mem_of_mem_pushToEnd hpwmem hx
          have := hbound x hxcs
          omega
        obtain ⟨f1, csB, hf1⟩ := ihn (n - 1) (by omega)
          (dispCount owner (pushToEnd pw cs) pw + 1)
          (pushToEnd pw cs) pw hnd1 (self_mem_pushToEnd pw cs) hbound1 (Nat.lt_succ_self _)
        have hps : PushSeq (fun z => rank pw < rank z) (pushToEnd pw cs) csB :=
          mwfGo_pushSeq (fun a b h => hrank a b h)
            (fun _ a b h1 h2 => Nat.lt_trans (hrank a b h2) h1) hf1
        have hndB : csB.Nodup := PushSeq_nodup hps hnd1
        have hwB : w ∈ csB := PushSeq_mem hps w (mem_pushToEnd_of_mem hw)
        have hsubB : ∀ x ∈ csB, x ∈ cs := fun x hx =>
          mem_of_mem_pushToEnd hpwmem (PushSeq_subset hps x hx)
        have hboundB : ∀ x ∈ csB, rank x < rank w + n := fun x hx => hbound x (hsubB x hx)
        have hKB : dispCount owner csB w ≤ dispCount owner (pushToEnd pw cs) w :=
          dispCount_pushSeq_le
            (fun z hz he => by rw [he] at hz; omega)
            hps hnd1 (mem_pushToEnd_of_mem hw)
        have hpwne : pw ≠ w := fun he => by rw [he] at hrpw; omega
        have hK1 : dispCount owner (pushToEnd pw cs) w < dispCount owner cs w :=
          dispCount_push_lt hnd hw hpwmem hpwne hpwown hpwlt
        obtain ⟨f2, cs2, hf2⟩ := ihk (dispCount owner cs w) (by omega) csB w hndB hwB
          hboundB (by omega)
        refine ⟨max f1 f2 + 1, cs2, ?_⟩
        rw [mwfGo_succ_scan_some hscan]
        rw [mwfGo_mono_le (Nat.le_max_left f1 f2) hf1]
        exact mwfGo_mono_le (Nat.le_max_right f1 f2) hf2

theorem le_foldr_max (rank : W → Nat) :
    ∀ (l : List W) (x : W), x ∈ l →
      rank x ≤ l.foldr (fun y acc => max (rank y) acc) 0 := by
  intro l
  induction l with
  | nil => intro x hx; cases hx
  | cons h t ih =>
    intro x hx
    rcases List.mem_cons.1 hx with h1 | h1
    · subst h1; exact Nat.le_max_left _ _
    · exact Nat.le_trans (ih x h1) (Nat.le_max_right _ _)

/-- A single `moveWindowToFront` call on a duplicate-free child list that satisfies
the popup-above-owner invariant, with acyclic (ranked) popup ownership: the call
terminates, and its result is again duplicate-free and satisfies the invariant. -/
theorem moveWindowToFront_total {owner : W → Option W} {rank : W → Nat}
    (hrank : ∀ x y, owner x = some y → rank y < rank x)
    {cs : List W} (w : W) (hnd : cs.Nodup) (hinv : popupInv owner cs) :
    ∃ f cs2, moveWindowToFront owner f cs w = some cs2 ∧
      (∀ g, f ≤ g → moveWindowToFront owner g cs w = some cs2) ∧
      cs2.Nodup ∧ popupInv owner cs2 ∧ (∀ x, x ∈ cs2 ↔ (x ∈ cs ∨ x = w)) := by
  have hself : ∀ x, owner x ≠ some x := fun x h => absurd (hrank x x h) (Nat.lt_irrefl _)
  have hnd1 : (pushToEnd w cs).Nodup := nodup_pushToEnd w hnd
  have hw1 : w ∈ pushToEnd w cs := self_mem_pushToEnd w cs
  have hbound : ∀ x ∈ pushToEnd w cs, rank x < rank w +
      ((pushToEnd w cs).foldr (fun y acc => max (rank y) acc) 0 + 1) := by
    intro x hx
    have := le_foldr_max rank (pushToEnd w cs) x hx
    omega
  obtain ⟨f, cs2, hf⟩ := mwfGo_term hrank
    ((pushToEnd w cs).foldr (fun y acc => max (rank y) acc) 0 + 1)
    (dispCount owner (pushToEnd w cs) w + 1)
    (pushToEnd w cs) w hnd1 hw1 hbound (Nat.lt_succ_self _)
  have hE1 : popupInvExc owner (pushToEnd w cs) (fun x => False ∨ x = w) :=
    popupInvExc_pushToEnd hnd (popupInv_iff_exc.1 hinv)
  obtain ⟨hperm, hE2⟩ := mwfGo_pres hself hnd1 hw1 hE1 hf
  refine ⟨f, cs2, hf, fun g hg => mwfGo_mono_le hg hf, hperm.symm.nodup hnd1, ?_, ?_⟩
  · exact popupInv_iff_exc.2 hE2
  · intro x
    rw [hperm.mem_iff, mem_pushToEnd]
    constructor
    · intro h
      rcases h with ⟨h1, _⟩ | h1
      · exact Or.inl h1
      · exact Or.inr h1
    · intro h
      by_cases hxw : x = w
      · exact Or.inr hxw
      · rcases h with h1 | h1
        · exact Or.inl ⟨h1, hxw⟩
        · exact absurd h1 hxw

/-- The pushes of a run of `mwfGo owner f cs w` all lie on transitive
popup-ownership chains leading down to `w`, with every chain node a member of the
ambient set `ms`. -/
theorem mwfGo_pushSeq_chain {owner : W → Option W} {ms : W → Prop} :
    ∀ {f : Nat} {cs : List W} {w : W} {cs2 : List W},
      mwfGo owner f cs w = some cs2 → (∀ x ∈ cs, ms x) → w ∈ cs →
      PushSeq (fun z =>
        Relation.TransGen (fun a b => owner a = some b ∧ ms a ∧ ms b) z w) cs cs2 := by
  intro f
  induction f with
  | zero => intro cs w cs2 h; simp [mwfGo] at h
  | succ f ih =>
    intro cs w cs2 h hms hw
    cases hscan : scanPopup owner w cs with
    | none =>
      rw [mwfGo_succ_scan_none hscan] at h
      injection h with h3
      subst h3
      exact PushSeq.refl _
    | some pw =>
      rw [mwfGo_succ_scan_some hscan] at h
      obtain ⟨hpwmem, hpwown⟩ := scanPopup_some_mem hscan
      cases hin : mwfGo owner f (pushToEnd pw cs) pw with
      | none => rw [hin] at h; cases h
      | some csB =>
        rw [hin] at h
        have h3 : mwfGo owner f csB w = some cs2 := h
        have hms1 : ∀ x ∈ pushToEnd pw cs, ms x := fun x hx =>
          hms x (mem_of_mem_pushToEnd hpwmem hx)
        have hedge : Relation.TransGen
            (fun a b => owner a = some b ∧ ms a ∧ ms b) pw w :=
          Relation.TransGen.single ⟨hpwown, hms pw hpwmem, hms w hw⟩
        have hinner0 := ih hin hms1 (self_mem_pushToEnd pw cs)
        have hinner : PushSeq (fun z =>
            Relation.TransGen (fun a b => owner a = some b ∧ ms a ∧ ms b) z w)
            (pushToEnd pw cs) csB :=
          PushSeq_mono (fun z hz => Relation.TransGen.trans hz hedge) hinner0
        have hmsB : ∀ x ∈ csB, ms x := fun x hx => hms1 x (PushSeq_subset hinner x hx)
        have hwB : w ∈ csB := PushSeq_mem hinner w (mem_pushToEnd_of_mem hw)
        have houter := ih h3 hmsB hwB
        exact PushSeq.step hpwmem hedge (PushSeq_trans hinner houter)

/-- Elements sitting after `w` at the end of a push sequence either were pushed
(satisfy `X`) or already sat after `w` at the start. -/
theorem PushSeq_after {X : W → Prop} {w : W} (hXw : ∀ z, X z → z ≠ w) :
    ∀ {cs cs2 : List W}, PushSeq X cs cs2 → cs.Nodup → w ∈ cs →
      ∀ y ∈ cs2, cs2.indexOf w < cs2.indexOf y →
        X y ∨ (y ∈ cs ∧ cs.indexOf w < cs.indexOf y) := by
  intro cs cs2 h
  induction h with
  | refl cs => intro _ _ y hy hlt; exact Or.inr ⟨hy, hlt⟩
  | @step csA _ z hz hXz _ ih =>
    intro hnd hw y hy hlt
    rcases ih (nodup_pushToEnd _ hnd) (mem_pushToEnd_of_mem hw) y hy hlt with hX | ⟨hy1, hlt1⟩
    · exact Or.inl hX
    · by_cases hyz : y = z
      · exact Or.inl (hyz ▸ hXz)
      · have hycs : y ∈ csA := mem_of_mem_pushToEnd hz hy1
        have hwy : w ≠ y := by
          intro he
          rw [he] at hlt1
          exact Nat.lt_irrefl _ hlt1
        rcases (pushToEnd_lt_iff hw hycs hwy).1 hlt1 with ⟨h1, _⟩ | ⟨_, _, h3⟩
        · exact absurd h1 hyz
        · exact Or.inr ⟨hycs, h3⟩

/-- Number of elements sitting strictly after `w` in the list. -/
def afterCount (cs : List W) (w : W) : Nat :=
  cs.countP (fun y => decide (cs.indexOf w < cs.indexOf y))

theorem afterCount_split {cs : List W} {w : W} (hnd : cs.Nodup) (hw : w ∈ cs) :
    cs.indexOf w + afterCount cs w + 1 = cs.length := by
  obtain ⟨l1, l2, rfl⟩ := List.append_of_mem hw
  rcases List.nodup_append.1 hnd with ⟨hnd1, hnd2c, hdisj⟩
  have hwl1 : w ∉ l1 := fun h => hdisj h (List.mem_cons_self w l2)
  have hwl2 : w ∉ l2 := (List.nodup_cons.1 hnd2c).1
  have hidxw : (l1 ++ w :: l2).indexOf w = l1.length := by
    rw [List.indexOf_append_of_not_mem hwl1, List.indexOf_cons_self]
    omega
  have hcount : afterCount (l1 ++ w :: l2) w = l2.length := by
    unfold afterCount
    rw [List.countP_append, List.countP_cons]
    have hc1 : l1.countP
        (fun y => decide ((l1 ++ w :: l2).indexOf w < (l1 ++ w :: l2).indexOf y)) = 0 := by
      rw [List.countP_eq_zero]
      intro y hy
      have hyw : y ≠ w := fun he => hwl1 (he ▸ hy)
      have : (l1 ++ w :: l2).indexOf y = l1.indexOf y := List.indexOf_append_of_mem hy
      have hylt : l1.indexOf y < l1.length := List.indexOf_lt_length.2 hy
      simp only [decide_eq_true_eq, hidxw, this]
      omega
    have hcw : (decide ((l1 ++ w :: l2).indexOf w < (l1 ++ w :: l2).indexOf w)) = false := by
      simp
    have hc2 : l2.countP
        (fun y => decide ((l1 ++ w :: l2).indexOf w < (l1 ++ w :: l2).indexOf y)) =
        l2.length := by
      rw [List.countP_eq_length]
      intro y hy
      have hyw : y ≠ w := fun he => hwl2 (he ▸ hy)
      have hyl1 : y ∉ l1 := fun h => hdisj h (List.mem_cons_of_mem w hy)
      have h1 : (l1 ++ w :: l2).indexOf y = l1.length + (w :: l2).indexOf y :=
        List.indexOf_append_of_not_mem hyl1
      have h2 : (w :: l2).indexOf y = l2.indexOf y + 1 :=
        List.indexOf_cons_ne _ (fun he => hyw he.symm)
      simp only [decide_eq_true_eq, hidxw, h1, h2]
      omega
    rw [hc1, hcw, hc2]
    simp
  rw [hidxw, hcount]
  simp [List.length_append]
  omega

theorem transGen_owner_rank {owner : W → Option W} {rank : W → Nat} {ms : W → Prop}
    (hrank : ∀ x y, owner x = some y → rank y < rank x) :
    ∀ {z w : W}, Relation.TransGen (fun a b => owner a = some b ∧ ms a ∧ ms b) z w →
      rank w < rank z := by
  intro z w hz
  induction hz with
  | single h1 => exact hrank _ _ h1.1
  | tail _ h2 ih => exact Nat.lt_trans (hrank _ _ h2.1) ih

theorem transGen_owner_indexOf {owner : W → Option W} {cs : List W}
    (hinv : popupInv owner cs) :
    ∀ {z w : W}, Relation.TransGen (fun a b => owner a = some b ∧ a ∈ cs ∧ b ∈ cs) z w →
      cs.indexOf w < cs.indexOf z := by
  intro z w hz
  induction hz with
  | single h1 => exact hinv _ h1.2.1 _ h1.2.2 h1.1
  | tail _ h2 ih => exact Nat.lt_trans (hinv _ h2.2.1 _ h2.2.2 h2.1) ih

/-- C10 helper: a successful `moveWindowToFront` on a duplicate-free list that
contains the target produces a permutation of the input (no preconditions on
popup ownership at all). -/
theorem moveWindowToFront_perm {owner : W → Option W} {fuel : Nat} {cs cs2 : List W}
    {w : W} (hnd : cs.Nodup) (hw : w ∈ cs)
    (h : moveWindowToFront owner fuel cs w = some cs2) : List.Perm cs2 cs := by
  have hps : PushSeq (fun _ => True) (pushToEnd w cs) cs2 :=
    @mwfGo_pushSeq W _ owner (fun _ _ => True) (fun _ _ _ => trivial)
      (fun _ _ _ _ _ => trivial) fuel (pushToEnd w cs) w cs2 h
  exact (PushSeq_perm hps (nodup_pushToEnd w hnd)).trans (perm_pushToEnd hw hnd)

/-- C10 helper: under the popup-above-owner invariant and acyclic ownership, the
target window's index never decreases across a `moveWindowToFront` call. -/
theorem moveWindowToFront_indexOf_le {owner : W → Option W} {rank : W → Nat}
    (hrank : ∀ x y, owner x = some y → rank y < rank x)
    {fuel : Nat} {cs cs2 : List W} {w : W} (hnd : cs.Nodup) (hw : w ∈ cs)
    (hinv : popupInv owner cs)
    (h : moveWindowToFront owner fuel cs w = some cs2) :
    cs.indexOf w ≤ cs2.indexOf w := by
  have hperm : List.Perm cs2 cs := moveWindowToFront_perm hnd hw h
  have hnd1 : (pushToEnd w cs).Nodup := nodup_pushToEnd w hnd
  have hnd2 : cs2.Nodup := hperm.symm.nodup hnd
  have hw2 : w ∈ cs2 := hperm.mem_iff.2 hw
  have hms1 : ∀ x ∈ pushToEnd w cs, x ∈ cs := fun x hx => mem_of_mem_pushToEnd hw hx
  have hps : PushSeq (fun z =>
      Relation.TransGen (fun a b => owner a = some b ∧ a ∈ cs ∧ b ∈ cs) z w)
      (pushToEnd w cs) cs2 :=
    mwfGo_pushSeq_chain h hms1 (self_mem_pushToEnd w cs)
  have hXw : ∀ z, Relation.TransGen
      (fun a b => owner a = some b ∧ a ∈ cs ∧ b ∈ cs) z w → z ≠ w := by
    intro z hz he
    have := transGen_owner_rank hrank hz
    rw [he] at this
    exact Nat.lt_irrefl _ this
  have hafter : afterCount cs2 w ≤ afterCount cs w := by
    have hmono : cs2.countP (fun y => decide (cs2.indexOf w < cs2.indexOf y)) ≤
        cs2.countP (fun y => decide (cs.indexOf w < cs.indexOf y)) := by
      refine List.countP_mono_left ?_
      intro y hy hpred
      have hlt : cs2.indexOf w < cs2.indexOf y := of_decide_eq_true hpred
      rcases PushSeq_after hXw hps hnd1 (self_mem_pushToEnd w cs) y hy hlt
        with hX | ⟨hy1, hlt1⟩
      · exact decide_eq_true (transGen_owner_indexOf hinv hX)
      · have hyw : y ≠ w := by
          intro he
          rw [he] at hlt
          exact Nat.lt_irrefl _ hlt
        have hycs : y ∈ cs := mem_of_mem_pushToEnd hw hy1
        exact absurd hlt1 (by
          have := indexOf_pushToEnd_lt_self hycs hyw
          omega)
    have heq : cs2.countP (fun y => decide (cs.indexOf w < cs.indexOf y)) =
        cs.countP (fun y => decide (cs.indexOf w < cs.indexOf y)) :=
      hperm.countP_eq _
    unfold afterCount
    omega
  have hsplit1 := afterCount_split hnd hw
  have hsplit2 := afterCount_split hnd2 hw2
  have hlen : cs2.length = cs.length := hperm.length_eq
  omega

theorem runSeq_cons_some {owner : W → Option W} {f : Nat} {cs csB : List W} {t : W}
    (ts : List W) (h : moveWindowToFront owner f cs t = some csB) :
    runSeq owner f (t :: ts) cs = runSeq owner f ts csB := by
  rw [runSeq, h]

theorem runSeq_cons_none {owner : W → Option W} {f : Nat} {cs : List W} {t : W}
    (ts : List W) (h : moveWindowToFront owner f cs t = none) :
    runSeq owner f (t :: ts) cs = none := by
  rw [runSeq, h]

theorem runSeq_mono_le {owner : W → Option W} {f g : Nat} (hfg : f ≤ g) :
    ∀ {ws cs r : List W}, runSeq owner f ws cs = some r → runSeq owner g ws cs = some r := by
  intro ws
  induction ws with
  | nil => intro cs r h; exact h
  | cons t ts ih =>
    intro cs r h
    cases hcall : moveWindowToFront owner f cs t with
    | none => rw [runSeq_cons_none ts hcall] at h; cases h
    | some csB =>
      rw [runSeq_cons_some ts hcall] at h
      rw [runSeq_cons_some ts (mwfGo_mono_le hfg hcall)]
      exact ih h

end MoveToFront

section ClaimsMoveToFront

variable {W : Type} [DecidableEq W]

/-- Claim C1, corrected. As literally stated ("for every child sequence … after any
sequence of `moveWindowToFront` calls, every popup has a greater index than its
owner, and each call terminates") the claim is false — see the counterexample —
because a call on one window does not repair popup/owner pairs belonging to other
windows, and because cyclic popup ownership makes the loop diverge.  Amended:
whenever the popup-ownership back-references are acyclic (witnessed by a rank
strictly decreasing from popup to owner) and the child sequence is duplicate-free
and already satisfies the popup-above-owner invariant, then after ANY sequence of
`moveWindowToFront` calls on arbitrary targets every call terminates (sufficient
fuel exists, and more fuel never changes the result, by `mwfGo_mono_le`) and the
resulting child sequence is duplicate-free and again satisfies the invariant:
every popup present sits at a strictly greater index than its owner, transitive
ownership chains included. -/
theorem claim_C1_popup_zorder (owner : W → Option W) (rank : W → Nat)
    (hrank : ∀ x y, owner x = some y → rank y < rank x)
    (cs : List W) (hnd : cs.Nodup) (hinv : popupInv owner cs) (ws : List W) :
    ∃ fuel cs2, runSeq owner fuel ws cs = some cs2 ∧ popupInv owner cs2 ∧ cs2.Nodup := by
  induction ws generalizing cs with
  | nil => exact ⟨1, cs, rfl, hinv, hnd⟩
  | cons t ts ih =>
    obtain ⟨f1, csB, _, hmono1, hndB, hinvB, _⟩ := moveWindowToFront_total hrank t hnd hinv
    obtain ⟨F, cs2, hF, hinv2, hnd2⟩ := ih csB hndB hinvB
    refine ⟨max f1 F, cs2, ?_, hinv2, hnd2⟩
    rw [runSeq_cons_some ts (hmono1 _ (Nat.le_max_left f1 F))]
    exact runSeq_mono_le (Nat.le_max_right f1 F) hF

/-- Witness for the amended claim C1 at a concrete instance: widget `0` is a popup
owned by window `1`, the initial child sequence `[1, 0, 2]` satisfies the
invariant, and windows `1` then `2` are brought to front. -/
theorem claim_C1_witness :
    ∃ fuel cs2,
      runSeq (fun n : Nat => if n = 0 then some 1 else none) fuel [1, 2] [1, 0, 2] =
          some cs2 ∧
        popupInv (fun n : Nat => if n = 0 then some 1 else none) cs2 ∧ cs2.Nodup :=
  claim_C1_popup_zorder (fun n : Nat => if n = 0 then some 1 else none)
    (fun n => if n = 0 then 1 else 0)
    (by
      intro x y h
      dsimp only at h
      by_cases hx : x = 0
      · subst hx
        rw [if_pos rfl] at h
        injection h with h2
        subst h2
        decide
      · rw [if_neg hx] at h
        cases h)
    [1, 0, 2] (by decide) (by decide) [1, 2]

/-- Counterexample to claim C1 as stated: widget `0` is a popup owned by window
`1`, the child sequence is `[0, 1, 2]` (popup BEFORE its owner), and
`moveWindowToFront` is called on the unrelated window `2`.  The call terminates
and leaves the sequence unchanged, so the popup still paints below its owner: the
invariant does not hold after this sequence of calls. -/
theorem claim_C1_counterexample :
    runSeq (fun n : Nat => if n = 0 then some 1 else none) 5 [2] [0, 1, 2] =
        some [0, 1, 2] ∧
      ¬ popupInv (fun n : Nat => if n = 0 then some 1 else none) [0, 1, 2] := by
  constructor
  · rfl
  · decide

/-- Claim C10, corrected. The permutation half holds unconditionally: on a
duplicate-free child sequence containing the target, a completed
`moveWindowToFront` neither adds, removes nor duplicates widgets.  The index half
("the target's index after the call is greater than or equal to its index
before") is false as stated — see the counterexample, where a displaced popup is
moved past the target and the target's index drops — but becomes true under the
popup-above-owner invariant with acyclic ownership, which is the state the screen
maintains. -/
theorem claim_C10_perm_and_index (owner : W → Option W) (fuel : Nat)
    (cs cs2 : List W) (w : W) (hnd : cs.Nodup) (hw : w ∈ cs)
    (h : moveWindowToFront owner fuel cs w = some cs2) :
    List.Perm cs2 cs ∧
      (∀ rank : W → Nat, (∀ x y, owner x = some y → rank y < rank x) →
        popupInv owner cs → cs.indexOf w ≤ cs2.indexOf w) :=
  ⟨moveWindowToFront_perm hnd hw h,
   fun _ hrank hinv => moveWindowToFront_indexOf_le hrank hnd hw hinv h⟩

/-- Witness for claim C10 at a concrete instance: no popups, two children, the
first brought to front; the result is the permutation `[1, 0]` and, with the
(vacuous) invariant, the index of the target grows from 0 to 1. -/
theorem claim_C10_witness :
    List.Perm [1, 0] [0, 1] ∧
      (∀ rank : Nat → Nat, (∀ x y, (fun _ : Nat => (none : Option Nat)) x = some y →
          rank y < rank x) →
        popupInv (fun _ : Nat => (none : Option Nat)) [0, 1] →
        List.indexOf 0 [0, 1] ≤ List.indexOf 0 [1, 0]) :=
  claim_C10_perm_and_index (fun _ : Nat => none) 3 [0, 1] [1, 0] 0
    (by decide) (by decide) rfl

/-- Counterexample to the index half of claim C10 as stated: widget `0` is a popup
owned by window `3`; starting from `[0, 1, 2, 3]` (which violates the
popup-above-owner invariant), bringing `3` to front moves the displaced popup `0`
past it and the target's index DROPS from 3 to 2 — while the result is still a
permutation of the input. -/
theorem claim_C10_counterexample :
    moveWindowToFront (fun n : Nat => if n = 0 then some 3 else none) 5 [0, 1, 2, 3] 3 =
        some [1, 2, 3, 0] ∧
      List.indexOf 3 [1, 2, 3, 0] < List.indexOf 3 [0, 1, 2, 3] := by
  constructor
  · rfl
  · decide

end ClaimsMoveToFront

section Registry

/-!
The input-routing registry (`WindowHandlerConstants`, `src/example1.cpp`).  Each of
the seven event categories keeps a `std::vector<std::pair<int, callback>>`; the
add/remove/handle members of all categories share one shape, so they are modelled
once over an abstract callback type `C` and argument tuple type `A`.
-/

variable {C A : Type}

/-- `addXCallback(id, fn)`: `push_back(make_pair(id, fn))`. -/
def addCallback (l : List (Int × C)) (id : Int) (fn : C) : List (Int × C) :=
  l ++ [(id, fn)]

/-- `removeXCallback(id)`: `find_if` the first entry whose id matches, erase it if
found; an absent match is a silent no-op. -/
def removeCallback : List (Int × C) → Int → List (Int × C)
  | [], _ => []
  | e :: t, id => if e.1 = id then t else e :: removeCallback t id

/-- `handleXEvent(screenId, args…)`: walk the stored list in order, invoking every
callback whose id matches and passing the arguments through unchanged.  The result
is the invocation trace: which callbacks ran, in which order, with which
arguments. -/
def handleEvent : List (Int × C) → Int → A → List (C × A)
  | [], _, _ => []
  | e :: t, id, args =>
    if e.1 = id then (e.2, args) :: handleEvent t id args else handleEvent t id args

/-- A finite sequence of add/remove operations on one callback category. -/
inductive RegOp (C : Type) where
  | add : Int → C → RegOp C
  | remove : Int → RegOp C

/-- Run a sequence of registry operations starting from a given list. -/
def applyOps : List (RegOp C) → List (Int × C) → List (Int × C)
  | [], l => l
  | RegOp.add id fn :: ops, l => applyOps ops (addCallback l id fn)
  | RegOp.remove id :: ops, l => applyOps ops (removeCallback l id)

theorem handleEvent_eq_filter (l : List (Int × C)) (id : Int) (args : A) :
    handleEvent l id args = (l.filter (fun e => e.1 == id)).map (fun e => (e.2, args)) := by
  induction l with
  | nil => rfl
  | cons e t ih =>
    simp only [handleEvent, List.filter_cons]
    by_cases he : e.1 = id
    · rw [if_pos he]
      have hb : (e.1 == id) = true := beq_iff_eq.2 he
      rw [hb]
      simp only [if_true, List.map_cons, ih]
    · rw [if_neg he]
      have hb : (e.1 == id) = false := beq_eq_false_iff_ne.2 he
      rw [hb]
      simp only [Bool.false_eq_true, if_false, ih]

theorem removeCallback_no_match (l : List (Int × C)) (id : Int)
    (h : ∀ e ∈ l, e.1 ≠ id) : removeCallback l id = l := by
  induction l with
  | nil => rfl
  | cons e t ih =>
    simp only [removeCallback]
    rw [if_neg (h e (List.mem_cons_self e t))]
    rw [ih (fun x hx => h x (List.mem_cons_of_mem e hx))]

theorem removeCallback_first (l1 l2 : List (Int × C)) (e : Int × C) (id : Int)
    (he : e.1 = id) (h1 : ∀ x ∈ l1, x.1 ≠ id) :
    removeCallback (l1 ++ e :: l2) id = l1 ++ l2 := by
  induction l1 with
  | nil =>
    simp only [List.nil_append, removeCallback]
    rw [if_pos he]
  | cons x t ih =>
    simp only [List.cons_append, removeCallback]
    rw [if_neg (h1 x (List.mem_cons_self x t))]
    show x :: removeCallback (t ++ e :: l2) id = x :: (t ++ l2)
    rw [ih (fun y hy => h1 y (List.mem_cons_of_mem x hy))]

end Registry

/-- Claim C7, confirmed. For every event category (all categories share this one
code shape) and every finite sequence of add/remove operations:
`handleXEvent(id, args…)` invokes exactly the callbacks currently registered under
`id`, in insertion (list) order, passing the arguments unchanged, and none
registered under a different id (first conjunct: the invocation trace is exactly
the id-filtered registry paired with the unchanged arguments); `removeXCallback`
is a no-op when no entry matches (second conjunct); and it removes exactly the
first matching entry, leaving every other entry unchanged (third conjunct). -/
theorem claim_C7_registry_dispatch {C A : Type} :
    (∀ (ops : List (RegOp C)) (id : Int) (args : A),
        handleEvent (applyOps ops []) id args =
          ((applyOps ops []).filter (fun e => e.1 == id)).map (fun e => (e.2, args))) ∧
      (∀ (l : List (Int × C)) (id : Int), (∀ e ∈ l, e.1 ≠ id) →
        removeCallback l id = l) ∧
      (∀ (l1 l2 : List (Int × C)) (e : Int × C) (id : Int), e.1 = id →
        (∀ x ∈ l1, x.1 ≠ id) → removeCallback (l1 ++ e :: l2) id = l1 ++ l2) :=
  ⟨fun ops id args => handleEvent_eq_filter (applyOps ops []) id args,
   removeCallback_no_match,
   removeCallback_first⟩

/-- Witness for claim C7 at concrete inputs: after
`add(1,10); add(2,20); add(1,30); remove(1)` the registry holds
`[(2,20),(1,30)]`, and dispatching to id 1 with argument 7 invokes exactly the
one remaining id-1 callback; removing an absent id is a no-op; removal deletes
only the first matching entry. -/
theorem claim_C7_witness :
    handleEvent (applyOps
        [RegOp.add 1 (10 : Nat), RegOp.add 2 20, RegOp.add 1 30, RegOp.remove 1] [])
        1 (7 : Nat) = [(30, 7)] ∧
      removeCallback [((2 : Int), (5 : Nat))] 1 = [(2, 5)] ∧
      removeCallback ([((2 : Int), (5 : Nat))] ++ (1, 6) :: [(1, 7)]) 1 =
        [((2 : Int), (5 : Nat))] ++ [(1, 7)] := by
  refine ⟨?_, ?_, ?_⟩
  · rw [(@claim_C7_registry_dispatch Nat Nat).1
      [RegOp.add 1 10, RegOp.add 2 20, RegOp.add 1 30, RegOp.remove 1] 1 7]
    rfl
  · exact (@claim_C7_registry_dispatch Nat Nat).2.1 [(2, 5)] 1 (by decide)
  · exact (@claim_C7_registry_dispatch Nat Nat).2.2 [(2, 5)] [(1, 7)] (1, 6) 1
      rfl (by decide)

section Focus

variable {W : Type} [DecidableEq W]

/-- The upward parent walk of `Screen::updateFocus`: `while (widget) { path.push_back(widget); widget = widget->parent(); }`, with explicit fuel.
`none` means the fuel ran out, which can only happen on a cyclic parent chain — a
state a real widget tree never reaches. -/
def ancestorChain (parent : W → Option W) : Nat → Option W → Option (List W)
  | _, none => some []
  | 0, some _ => none
  | Nat.succ f, some x =>
    match ancestorChain parent f (parent x) with
    | none => none
    | some t => some (x :: t)

theorem ancestorChain_none (parent : W → Option W) (f : Nat) :
    ancestorChain parent f none = some [] := by
  cases f <;> rfl

theorem ancestorChain_succ (parent : W → Option W) (f : Nat) (x : W) :
    ancestorChain parent (f + 1) (some x) =
      match ancestorChain parent f (parent x) with
      | none => none
      | some t => some (x :: t) := rfl

theorem ancestorChain_cons {parent : W → Option W} {f : Nat} {x : W} {L : List W}
    (h : ancestorChain parent (f + 1) (some x) = some L) :
    ∃ t, L = x :: t ∧ ancestorChain parent f (parent x) = some t := by
  rw [ancestorChain_succ] at h
  cases hc : ancestorChain parent f (parent x) with
  | none => rw [hc] at h; cases h
  | some t =>
    rw [hc] at h
    injection h with h2
    exact ⟨t, h2.symm, rfl⟩

theorem ancestorChain_some_shape {parent : W → Option W} :
    ∀ {f : Nat} {x : W} {L : List W}, ancestorChain parent f (some x) = some L →
      ∃ g t, f = g + 1 ∧ L = x :: t ∧ ancestorChain parent g (parent x) = some t := by
  intro f x L h
  cases f with
  | zero => cases h
  | succ g =>
    obtain ⟨t, h1, h2⟩ := ancestorChain_cons h
    exact ⟨g, t, rfl, h1, h2⟩

theorem ancestorChain_unique {parent : W → Option W} :
    ∀ {f : Nat} {o : Option W} {L M : List W} {g : Nat},
      ancestorChain parent f o = some L → ancestorChain parent g o = some M → L = M := by
  intro f
  induction f with
  | zero =>
    intro o L M g hL hM
    cases o with
    | none =>
      rw [ancestorChain_none] at hL hM
      injection hL with h1
      injection hM with h2
      rw [← h1, ← h2]
    | some x => cases hL
  | succ f ih =>
    intro o L M g hL hM
    cases o with
    | none =>
      rw [ancestorChain_none] at hL hM
      injection hL with h1
      injection hM with h2
      rw [← h1, ← h2]
    | some x =>
      obtain ⟨t, rfl, ht⟩ := ancestorChain_cons hL
      obtain ⟨g2, t2, rfl, rfl, ht2⟩ := ancestorChain_some_shape hM
      rw [ih ht ht2]

theorem ancestorChain_suffix {parent : W → Option W} :
    ∀ {f : Nat} {o : Option W} {L : List W}, ancestorChain parent f o = some L →
      ∀ l1 y l2, L = l1 ++ y :: l2 →
        ∃ g, ancestorChain parent g (some y) = some (y :: l2) := by
  intro f
  induction f with
  | zero =>
    intro o L h l1 y l2 hsplit
    cases o with
    | none =>
      rw [ancestorChain_none] at h
      injection h with h1
      rw [← h1] at hsplit
      exact absurd hsplit.symm (List.append_ne_nil_of_right_ne_nil l1 (by simp))
    | some x => cases h
  | succ f ih =>
    intro o L h l1 y l2 hsplit
    cases o with
    | none =>
      rw [ancestorChain_none] at h
      injection h with h1
      rw [← h1] at hsplit
      exact absurd hsplit.symm (List.append_ne_nil_of_right_ne_nil l1 (by simp))
    | some x =>
      obtain ⟨t, rfl, ht⟩ := ancestorChain_cons h
      cases l1 with
      | nil =>
        simp only [List.nil_append] at hsplit
        injection hsplit with h1 h2
        subst h1
        subst h2
        exact ⟨f + 1, h⟩
      | cons a l1t =>
        simp only [List.cons_append] at hsplit
        injection hsplit with h1 h2
        exact ih ht l1t y l2 h2

theorem ancestorChain_nodup {parent : W → Option W} :
    ∀ {f : Nat} {o : Option W} {L : List W}, ancestorChain parent f o = some L →
      L.Nodup := by
  intro f
  induction f with
  | zero =>
    intro o L h
    cases o with
    | none =>
      rw [ancestorChain_none] at h
      injection h with h1
      rw [← h1]
      exact List.nodup_nil
    | some x => cases h
  | succ f ih =>
    intro o L h
    cases o with
    | none =>
      rw [ancestorChain_none] at h
      injection h with h1
      rw [← h1]
      exact List.nodup_nil
    | some x =>
      obtain ⟨t, rfl, ht⟩ := ancestorChain_cons h
      refine List.nodup_cons.2 ⟨?_, ih ht⟩
      intro hmem
      obtain ⟨t1, t2, hsplit⟩ := List.append_of_mem hmem
      obtain ⟨g, hg⟩ := ancestorChain_suffix ht t1 x t2 hsplit
      have heq : x :: t = x :: t2 := ancestorChain_unique h hg
      injection heq with _ h2
      rw [hsplit] at h2
      have := congrArg List.length h2
      simp at this
      omega

theorem ancestorChain_links {parent : W → Option W} :
    ∀ {f : Nat} {x : W} {L : List W}, ancestorChain parent f (some x) = some L →
      ∀ i a b, L.get? i = some a → L.get? (i + 1) = some b → parent a = some b := by
  intro f
  induction f with
  | zero => intro x L h; cases h
  | succ f ih =>
    intro x L h i a b hget1 hget2
    obtain ⟨t, rfl, ht⟩ := ancestorChain_cons h
    cases i with
    | zero =>
      simp only [List.get?] at hget1 hget2
      injection hget1 with ha
      subst ha
      cases t with
      | nil => cases hget2
      | cons y t2 =>
        simp only [List.get?] at hget2
        injection hget2 with hb
        subst hb
        cases hp : parent x with
        | none =>
          rw [hp, ancestorChain_none] at ht
          injection ht with h1
          cases h1
        | some z =>
          rw [hp] at ht
          obtain ⟨g, t3, _, hshape, _⟩ := ancestorChain_some_shape ht
          injection hshape with hz
          rw [hz]
    | succ i2 =>
      simp only [List.get?] at hget1 hget2
      cases hp : parent x with
      | none =>
        rw [hp, ancestorChain_none] at ht
        injection ht with h1
        rw [← h1] at hget1
        cases hget1
      | some z =>
        rw [hp] at ht
        exact ih ht i2 a b hget1 hget2

theorem ancestorChain_last {parent : W → Option W} :
    ∀ {f : Nat} {x : W} {L : List W}, ancestorChain parent f (some x) = some L →
      ∃ r, L.getLast? = some r ∧ parent r = none := by
  intro f
  induction f with
  | zero => intro x L h; cases h
  | succ f ih =>
    intro x L h
    obtain ⟨t, rfl, ht⟩ := ancestorChain_cons h
    cases hp : parent x with
    | none =>
      rw [hp, ancestorChain_none] at ht
      injection ht with h1
      rw [← h1]
      exact ⟨x, rfl, hp⟩
    | some z =>
      rw [hp] at ht
      obtain ⟨r, hr1, hr2⟩ := ih ht
      refine ⟨r, ?_, hr2⟩
      cases t with
      | nil =>
        obtain ⟨g, t3, _, hshape, _⟩ := ancestorChain_some_shape ht
        cases hshape
      | cons y t2 =>
        rw [List.getLast?_cons_cons]
        exact hr1

/-- `Screen::updateFocus(widget)`.  Returns the new focus path, the focus
notification trace (`(w, false)` = `w->focusEvent(false)`, `(w, true)` =
`w->focusEvent(true)`), and the window handed to `moveWindowToFront` (if any).
The source first notifies every currently `focused()` member of the old path of
its focus loss (in stored, leaf-first order), clears the path, walks up the
parent chain from the target pushing every ancestor — the target itself, every
intermediate widget, and the final parentless root — while remembering the LAST
`Window` encountered (i.e. the outermost one), then notifies the whole new path
of focus gain in reverse (root-to-leaf) order, and finally brings the remembered
window to front. -/
def updateFocus (parent : W → Option W) (isWindow : W → Bool) (focused : W → Bool)
    (fuel : Nat) (oldPath : List W) (target : Option W) :
    Option (List W × List (W × Bool) × Option W) :=
  match ancestorChain parent fuel target with
  | none => none
  | some path =>
    some (path,
      (oldPath.filter (fun w => focused w)).map (fun w => (w, false)) ++
        path.reverse.map (fun w => (w, true)),
      path.reverse.find? isWindow)

/-- The focus path claimed by the spec: the ancestor chain of the target up to
but EXCLUDING the screen root.  This definition follows the words of the spec and
is kept only for comparison against the implementation. -/
def focusPathSpec (parent : W → Option W) (fuel : Nat) (target : Option W) :
    Option (List W) :=
  (ancestorChain parent fuel target).map (fun L => L.dropLast)

theorem count_pair_map_eq (l : List W) (b : Bool) (x : W) :
    (l.map (fun w => (w, b))).count (x, b) = l.count x := by
  induction l with
  | nil => rfl
  | cons h t ih =>
    rw [List.map_cons, List.count_cons, List.count_cons, ih]
    congr 1
    by_cases hxh : h = x
    · subst hxh
      rw [beq_iff_eq.2 rfl, beq_iff_eq.2 rfl]
    · rw [beq_eq_false_iff_ne.2 (fun he => hxh (congrArg Prod.fst he)),
        beq_eq_false_iff_ne.2 hxh]

theorem count_pair_map_ne (l : List W) (b c : Bool) (hbc : b ≠ c) (x : W) :
    (l.map (fun w => (w, b))).count (x, c) = 0 := by
  rw [List.count_eq_zero]
  intro hmem
  rcases List.mem_map.1 hmem with ⟨w2, _, hw2⟩
  exact hbc (congrArg Prod.snd hw2)

/-- Claim C2, corrected.  As stated ("the focus path equals the ancestor chain of
`W` up to but EXCLUDING the screen root") the claim is false: the `while (widget)`
walk in `Screen::updateFocus` pushes every ancestor including the final parentless
one (the screen root), so the stored path ends at the root — see the
counterexample.  (The event dispatchers compensate by starting at `rbegin()+1`.)
Amended, with the spec's own focus-path invariant (every old-path member has its
`focused()` flag set) and a duplicate-free old path: after `updateFocus(W)` the
new path is exactly the ancestor chain of `W` up to AND INCLUDING the parentless
root (head is `W`, consecutive entries are parent-linked, the last entry has no
parent); every old-path widget absent from the new path receives exactly one
lost-focus notification; every new-path widget receives exactly one gained-focus
notification; and the gained-focus notifications are delivered in root-to-leaf
order. -/
theorem claim_C2_updateFocus (parent : W → Option W) (isWindow : W → Bool)
    (focused : W → Bool) (fuel : Nat) (oldPath : List W) (t : W)
    (path : List W) (evs : List (W × Bool)) (fw : Option W)
    (hfoc : ∀ x ∈ oldPath, focused x = true) (hnd : oldPath.Nodup)
    (h : updateFocus parent isWindow focused fuel oldPath (some t) =
      some (path, evs, fw)) :
    path.head? = some t ∧
      (∀ i a b, path.get? i = some a → path.get? (i + 1) = some b → parent a = some b) ∧
      (∃ r, path.getLast? = some r ∧ parent r = none) ∧
      (∀ x, x ∈ oldPath → x ∉ path → evs.count (x, false) = 1) ∧
      (∀ x ∈ path, evs.count (x, true) = 1) ∧
      (evs.filter (fun e => e.2 == true)).map (fun e => e.1) = path.reverse := by
  unfold updateFocus at h
  cases hc : ancestorChain parent fuel (some t) with
  | none => rw [hc] at h; cases h
  | some L =>
    rw [hc] at h
    rw [Option.some.injEq, Prod.mk.injEq, Prod.mk.injEq] at h
    obtain ⟨hpath, hevs, _⟩ := h
    subst hpath
    subst hevs
    have hLnd : L.Nodup := ancestorChain_nodup hc
    refine ⟨?_, ancestorChain_links hc, ancestorChain_last hc, ?_, ?_, ?_⟩
    · obtain ⟨g, tl, _, rfl, _⟩ := ancestorChain_some_shape hc
      rfl
    · intro x hx hnx
      rw [List.count_append]
      have hg : (L.reverse.map (fun w => (w, true))).count (x, false) = 0 :=
        count_pair_map_ne L.reverse true false (by decide) x
      have hl : ((oldPath.filter (fun w => focused w)).map
          (fun w => (w, false))).count (x, false) = 1 :=
        (count_pair_map_eq (oldPath.filter (fun w => focused w)) false x).trans
          (List.count_eq_one_of_mem (hnd.filter _)
            (List.mem_filter.2 ⟨hx, hfoc x hx⟩))
      omega
    · intro x hx
      rw [List.count_append]
      have hl : ((oldPath.filter (fun w => focused w)).map
          (fun w => (w, false))).count (x, true) = 0 :=
        count_pair_map_ne (oldPath.filter (fun w => focused w)) false true (by decide) x
      have hg : (L.reverse.map (fun w => (w, true))).count (x, true) = 1 :=
        (count_pair_map_eq L.reverse true x).trans
          (List.count_eq_one_of_mem (List.nodup_reverse.2 hLnd)
            (List.mem_reverse.2 hx))
      omega
    · rw [List.filter_append]
      have hl0 : ((oldPath.filter (fun w => focused w)).map
          (fun w => (w, false))).filter (fun e => e.2 == true) = [] := by
        rw [List.filter_eq_nil_iff]
        intro e he
        rcases List.mem_map.1 he with ⟨w2, _, rfl⟩
        simp
      have hg1 : (L.reverse.map (fun w => (w, true))).filter
          (fun e => e.2 == true) = L.reverse.map (fun w => (w, true)) := by
        rw [List.filter_eq_self]
        intro e he
        rcases List.mem_map.1 he with ⟨w2, _, rfl⟩
        simp
      rw [hl0, hg1, List.nil_append, List.map_map]
      have hcomp : ((fun e : W × Bool => e.1) ∘ fun w : W => (w, true)) =
          fun w : W => w := rfl
      rw [hcomp]
      simp

/-- Witness for the amended claim C2: widget `0` has parent `1` (a window, itself
parentless), the previous focus path was `[5]` (focused), and `updateFocus(0)`
runs with fuel 3. -/
theorem claim_C2_witness :
    ([0, 1] : List Nat).head? = some 0 ∧
      (∀ i a b, ([0, 1] : List Nat).get? i = some a →
        ([0, 1] : List Nat).get? (i + 1) = some b →
        (fun n : Nat => if n = 0 then some 1 else none) a = some b) ∧
      (∃ r, ([0, 1] : List Nat).getLast? = some r ∧
        (fun n : Nat => if n = 0 then some 1 else none) r = none) ∧
      (∀ x, x ∈ ([5] : List Nat) → x ∉ ([0, 1] : List Nat) →
        ([(5, false), (1, true), (0, true)] : List (Nat × Bool)).count (x, false) = 1) ∧
      (∀ x ∈ ([0, 1] : List Nat),
        ([(5, false), (1, true), (0, true)] : List (Nat × Bool)).count (x, true) = 1) ∧
      (([(5, false), (1, true), (0, true)] : List (Nat × Bool)).filter
          (fun e => e.2 == true)).map (fun e => e.1) = ([0, 1] : List Nat).reverse :=
  claim_C2_updateFocus (fun n : Nat => if n = 0 then some 1 else none)
    (fun n => n == 1) (fun _ => true) 3 [5] 0 [0, 1]
    [(5, false), (1, true), (0, true)] (some 1)
    (by intro x _; rfl) (by decide) rfl

/-- Counterexample to claim C2 as stated: with `parent 0 = some 1` and `1`
parentless (so `1` is the screen root), `updateFocus(0)` stores the focus path
`[0, 1]` — including the root — while the claim's "ancestor chain up to but
excluding the screen root" is `[0]`. -/
theorem claim_C2_counterexample :
    (updateFocus (fun n : Nat => if n = 0 then some 1 else none) (fun _ => false)
        (fun _ => true) 3 [] (some 0)).map (fun r => r.1) = some [0, 1] ∧
      focusPathSpec (fun n : Nat => if n = 0 then some 1 else none) 3 (some 0) =
        some [0] ∧
      ¬ (some [0, 1] = (some [0] : Option (List Nat))) := by
  refine ⟨rfl, rfl, ?_⟩
  decide

/-- The focus-path walk shared by `Screen::keyboardEvent` and
`Screen::keyboardCharacterEvent`: offer the event to each widget of `order` in
turn — invoking the handler only when the widget's `focused()` flag is set — and
stop at the first handler that reports the event handled.  Returns the handled
flag together with the trace of widgets whose handler was invoked; a throwing
handler propagates its exception. -/
def focusDispatch {Er : Type} (h : W → Except Er Bool) (focused : W → Bool) :
    List W → Except Er (Bool × List W)
  | [] => Except.ok (false, [])
  | x :: t =>
    if focused x then
      match h x with
      | Except.error e => Except.error e
      | Except.ok true => Except.ok (true, [x])
      | Except.ok false =>
        match focusDispatch h focused t with
        | Except.error e => Except.error e
        | Except.ok (b, tr) => Except.ok (b, x :: tr)
    else focusDispatch h focused t

/-- `Screen::keyboardEvent`: iterate from `mFocusPath.rbegin() + 1` to `rend()`,
i.e. over the stored path minus its LAST element (the screen root), in reverse —
so the walk starts just below the root and ends at the focused leaf.  An empty
path yields false unhandled. -/
def keyboardEvent {Er : Type} (h : W → Except Er Bool) (focused : W → Bool)
    (path : List W) : Except Er (Bool × List W) :=
  focusDispatch h focused path.dropLast.reverse

/-- `Screen::keyboardCharacterEvent`: identical walk over the character handler. -/
def keyboardCharacterEvent {Er : Type} (h : W → Except Er Bool) (focused : W → Bool)
    (path : List W) : Except Er (Bool × List W) :=
  focusDispatch h focused path.dropLast.reverse

/-- The dispatch order claimed by the spec: from the focused leaf rootward,
excluding the screen root.  This definition follows the words of the spec, not
the source, and is kept only for comparison with `keyboardEvent`. -/
def keyboardEventSpecOrder {Er : Type} (h : W → Except Er Bool) (focused : W → Bool)
    (path : List W) : Except Er (Bool × List W) :=
  focusDispatch h focused path.dropLast

theorem focusDispatch_pure {Er : Type} (hb : W → Bool) (foc : W → Bool) :
    ∀ L : List W,
      focusDispatch (fun w => (Except.ok (hb w) : Except Er Bool)) foc L =
        Except.ok ((L.filter foc).any hb,
          (L.filter foc).takeWhile (fun w => !hb w) ++
            ((L.filter foc).find? hb).toList) := by
  intro L
  induction L with
  | nil => rfl
  | cons x t ih =>
    by_cases hfx : foc x
    · rw [List.filter_cons_of_pos hfx]
      by_cases hbx : hb x = true
      · simp only [focusDispatch, if_pos hfx, hbx]
        rw [List.any_cons, hbx]
        rw [List.takeWhile_cons, hbx]
        rw [List.find?_cons_of_pos _ hbx]
        rfl
      · have hbx2 : hb x = false := by
          cases hhb : hb x
          · rfl
          · exact absurd hhb hbx
        simp only [focusDispatch, if_pos hfx, hbx2, ih]
        rw [List.any_cons, hbx2]
        rw [List.takeWhile_cons, hbx2]
        rw [List.find?_cons_of_neg _ (by rw [hbx2]; exact Bool.false_ne_true)]
        rfl
    · rw [List.filter_cons_of_neg (by simpa using hfx)]
      simp only [focusDispatch, if_neg hfx, ih]

/-- Claim C3, corrected.  The spec claims the keyboard (and unicode-character)
event walks the focus path "from the leaf rootward"; the source iterates
`rbegin()+1 … rend()`, which walks the stored (leaf-first) path minus its last
element IN REVERSE — from the entry just below the screen root DOWN to the
focused leaf — so the direction in the claim is backwards; see the
counterexample, where the widget nearer the root consumes the event even though
the leaf would also have handled it.  Amended (both dispatchers): the event is
offered to the focused entries of the path minus the screen root, starting
nearest the root and ending at the leaf, short-circuiting at the first handler
that reports handled — the event is handled iff some focused non-root entry
handles it, and the invocation trace is the focused entries of the walk up to
and including the first successful one; an empty focus path leaves the event
unhandled with no handler invoked. -/
theorem claim_C3_keyboard_dispatch {Er : Type} :
    (∀ (hb foc : W → Bool) (path : List W),
        keyboardEvent (fun w => (Except.ok (hb w) : Except Er Bool)) foc path =
          Except.ok ((path.dropLast.reverse.filter foc).any hb,
            (path.dropLast.reverse.filter foc).takeWhile (fun w => !hb w) ++
              ((path.dropLast.reverse.filter foc).find? hb).toList)) ∧
      (∀ (h : W → Except Er Bool) (foc : W → Bool),
        keyboardEvent h foc ([] : List W) = Except.ok (false, [])) ∧
      (∀ (hb foc : W → Bool) (path : List W),
        keyboardCharacterEvent (fun w => (Except.ok (hb w) : Except Er Bool)) foc path =
          Except.ok ((path.dropLast.reverse.filter foc).any hb,
            (path.dropLast.reverse.filter foc).takeWhile (fun w => !hb w) ++
              ((path.dropLast.reverse.filter foc).find? hb).toList)) ∧
      (∀ (h : W → Except Er Bool) (foc : W → Bool),
        keyboardCharacterEvent h foc ([] : List W) = Except.ok (false, [])) :=
  ⟨fun hb foc path => focusDispatch_pure hb foc path.dropLast.reverse,
   fun _ _ => rfl,
   fun hb foc path => focusDispatch_pure hb foc path.dropLast.reverse,
   fun _ _ => rfl⟩

/-- Counterexample to claim C3 as stated: focus path `[0, 1, 2]` (leaf `0`, screen
root `2`), all widgets focused, and both `0` and `1` willing to handle the event.
Leaf-rootward dispatch (the spec order) would deliver to the leaf `0`; the code
delivers to `1` — the entry nearest the root — and the leaf never sees the
event. -/
theorem claim_C3_counterexample :
    keyboardEvent (fun n : Nat => (Except.ok (n == 0 || n == 1) : Except Unit Bool))
        (fun _ => true) [0, 1, 2] = Except.ok (true, [1]) ∧
      keyboardEventSpecOrder (fun n : Nat => (Except.ok (n == 0 || n == 1) : Except Unit Bool))
        (fun _ => true) [0, 1, 2] = Except.ok (true, [0]) ∧
      ¬ ((Except.ok (true, [1]) : Except Unit (Bool × List Nat)) =
        Except.ok (true, [0])) := by
  refine ⟨rfl, rfl, ?_⟩
  intro h
  injection h with h2
  rw [Prod.mk.injEq] at h2
  exact absurd h2.2 (by decide)

end Focus

section ScreenModel

/-!
The per-screen interaction state and the seven raw-event callback bodies of
`Screen` (`src/screen.cpp`).  Tree-walking virtual handlers (drag, motion,
button, per-widget keyboard/character, drop, scroll, resize) are oracles with
result type `Except E Bool`, so that the try/catch structure of each callback
body is part of the model: `Outcome.aborted` is the catch branch (report the
exception to the diagnostic stream and `abort()`), `Outcome.thrown` is an
exception escaping to the caller.  Each successful outcome also carries the
trace of events delivered into the widget tree.
-/

variable {W E : Type} [DecidableEq W]

/-- The interaction state of `Screen` that the event callbacks read and write. -/
structure ScreenState (W : Type) where
  mousePos : Int × Int
  mouseState : Nat
  modifiers : Int
  dragActive : Bool
  dragWidget : Option W
  focusPath : List W
  lastInteraction : Int
  size : Int × Int
  pixelRatio : Rat
  cursor : Int
deriving DecidableEq

/-- Events delivered into the widget tree (the trace of oracle invocations).
`button` with `target = some w` is the synthetic release delivered directly to
the drag widget; `target = none` is the tree-level `mouseButtonEvent`. -/
inductive Ev (W : Type) where
  | drag (target : W) (pos delta : Int × Int) (buttons : Nat) (mods : Int)
  | motion (pos delta : Int × Int) (buttons : Nat) (mods : Int)
  | button (target : Option W) (pos : Int × Int) (btn : Nat) (down : Bool) (mods : Int)
  | keyev (target : W) (key scancode action mods : Int)
  | charev (target : W) (codepoint : Nat)
  | dropev (files : List String)
  | scrollev (pos : Int × Int) (rel : Int × Int)
  | resizeev (size : Int × Int)
  | focusev (target : W) (gained : Bool)
deriving DecidableEq

/-- Outcome of one raw-event callback: normal return, process abort from the
catch-all handler, or an exception propagating to the caller. -/
inductive Outcome (E S : Type) where
  | ret : S → Outcome E S
  | aborted : E → Outcome E S
  | thrown : E → Outcome E S
deriving DecidableEq

/-- Result of a callback body: handled flag, new screen state, delivery trace. -/
abbrev EventResult (W E : Type) := Outcome E (Bool × ScreenState W × List (Ev W))

/-- The widget-tree collaborators of `Screen`, supplied as oracles.  Query
oracles (`findWidget`, `contains`, …) are pure; event handlers may throw. -/
structure Env (W E : Type) where
  screenSelf : W
  findWidget : Int × Int → Option W
  cursorOf : W → Int
  parentAbs : W → Int × Int
  isWindow : W → Bool
  modal : W → Bool
  contains : W → Int × Int → Bool
  focusedF : W → Bool
  mousePress : Int
  mouseRelease : Int
  primaryButton : Nat
  secondaryButton : Nat
  dragH : W → Int × Int → Int × Int → Nat → Int → Except E Bool
  motionH : Int × Int → Int × Int → Nat → Int → Except E Bool
  buttonWH : W → Int × Int → Nat → Bool → Int → Except E Bool
  buttonH : Int × Int → Nat → Bool → Int → Except E Bool
  keyWH : W → Int → Int → Int → Int → Except E Bool
  charWH : W → Nat → Except E Bool
  dropH : List String → Except E Bool
  scrollH : Int × Int → Int × Int → Except E Bool
  resizeH : Int × Int → Except E Bool

/-- Componentwise subtraction on integer vectors (`Eigen::Vector2i` minus). -/
def vsub (a b : Int × Int) : Int × Int := (a.1 - b.1, a.2 - b.2)

/-- `Screen::cursorPosCallbackEvent(x, y)`.  The raw position is shifted by the
fixed `(1, 2)` calibration offset; the interaction timestamp is stamped before
the try block.  Not dragging: hit-test and update the cursor shape, then always
deliver the generic motion event.  Dragging: deliver the drag event to the
captured widget — its position relative to the widget's parent, its delta
against the PREVIOUS recorded mouse position — and deliver the generic motion
event only if the drag handler declines.  The recorded mouse position becomes
the new position only at the very end.  A null drag widget while dragging is a
null-pointer dereference in the C++ (undefined behaviour); it is modelled as a
declined drag dispatch. -/
def cursorPosCallbackEvent (env : Env W E) (now : Int) (st : ScreenState W)
    (x y : Int) : EventResult W E :=
  let p : Int × Int := (x - 1, y - 2)
  let st1 := { st with lastInteraction := now }
  if st1.dragActive = false then
    let st2 :=
      match env.findWidget p with
      | some wdg =>
        if env.cursorOf wdg ≠ st1.cursor then { st1 with cursor := env.cursorOf wdg }
        else st1
      | none => st1
    match env.motionH p (vsub p st1.mousePos) st1.mouseState st1.modifiers with
    | Except.error e => Outcome.aborted e
    | Except.ok b =>
      Outcome.ret (b, { st2 with mousePos := p },
        [Ev.motion p (vsub p st1.mousePos) st1.mouseState st1.modifiers])
  else
    match st1.dragWidget with
    | none =>
      match env.motionH p (vsub p st1.mousePos) st1.mouseState st1.modifiers with
      | Except.error e => Outcome.aborted e
      | Except.ok b =>
        Outcome.ret (b, { st1 with mousePos := p },
          [Ev.motion p (vsub p st1.mousePos) st1.mouseState st1.modifiers])
    | some dw =>
      match env.dragH dw (vsub p (env.parentAbs dw)) (vsub p st1.mousePos)
          st1.mouseState st1.modifiers with
      | Except.error e => Outcome.aborted e
      | Except.ok true =>
        Outcome.ret (true, { st1 with mousePos := p },
          [Ev.drag dw (vsub p (env.parentAbs dw)) (vsub p st1.mousePos)
            st1.mouseState st1.modifiers])
      | Except.ok false =>
        match env.motionH p (vsub p st1.mousePos) st1.mouseState st1.modifiers with
        | Except.error e => Outcome.aborted e
        | Except.ok b =>
          Outcome.ret (b, { st1 with mousePos := p },
            [Ev.drag dw (vsub p (env.parentAbs dw)) (vsub p st1.mousePos)
              st1.mouseState st1.modifiers,
             Ev.motion p (vsub p st1.mousePos) st1.mouseState st1.modifiers])

/-- The modal-exclusivity gate shared by the mouse-button and scroll callbacks:
when the focus path has more than one entry and its second-to-top entry is a
modal `Window`, events whose position lies outside that window are rejected. -/
def modalGate (env : Env W E) (st : ScreenState W) : Bool :=
  if 1 < st.focusPath.length then
    match st.focusPath.get? (st.focusPath.length - 2) with
    | some win => env.isWindow win && env.modal win && !(env.contains win st.mousePos)
    | none => false
  else false

/-- `Screen::mouseButtonCallbackEvent(button, action, modifiers)`.  Stores the
modifiers and stamps the timestamp before the try block; inside it: the modal
gate may reject the event outright; the mouse-button bitmask is updated (set on
press, clear on release — `&= ~(1 << button)` is bit clearing, rendered on `Nat`
as subtracting the masked bit); a release while dragging over a different widget
first delivers a synthetic release to the drag widget; a press of the primary or
secondary button captures the hit-tested widget as drag target (the screen
itself resolves to no target, and with no target the focus is cleared via
`updateFocus(nullptr)` — lost-focus notifications to the focused old-path
members, path emptied); any other action clears the drag state; finally the
generic button event is delivered to the tree at the recorded mouse position. -/
def mouseButtonCallbackEvent (env : Env W E) (now : Int) (st : ScreenState W)
    (button : Nat) (action mods : Int) : EventResult W E :=
  let st1 := { st with modifiers := mods, lastInteraction := now }
  if modalGate env st1 then Outcome.ret (false, st1, [])
  else
    let newMask :=
      if action = env.mousePress then st1.mouseState ||| (1 <<< button)
      else st1.mouseState - (st1.mouseState &&& (1 <<< button))
    let st2 := { st1 with mouseState := newMask }
    let dropWidget := env.findWidget st2.mousePos
    let synRelease : Except E (List (Ev W)) :=
      if st2.dragActive = true ∧ action = env.mouseRelease ∧ dropWidget ≠ st2.dragWidget then
        match st2.dragWidget with
        | some dw =>
          match env.buttonWH dw (vsub st2.mousePos (env.parentAbs dw)) button false
              st2.modifiers with
          | Except.error e => Except.error e
          | Except.ok _ =>
            Except.ok [Ev.button (some dw) (vsub st2.mousePos (env.parentAbs dw))
              button false st2.modifiers]
        | none => Except.ok []
      else Except.ok []
    match synRelease with
    | Except.error e => Outcome.aborted e
    | Except.ok synEvs =>
      let pressGrab : Bool :=
        decide (action = env.mousePress ∧
          (button = env.primaryButton ∨ button = env.secondaryButton))
      let dw : Option W :=
        match env.findWidget st2.mousePos with
        | some w2 => if w2 = env.screenSelf then none else some w2
        | none => none
      let st3 :=
        if pressGrab then { st2 with dragWidget := dw, dragActive := dw.isSome }
        else { st2 with dragActive := false, dragWidget := none }
      let focusEvs : List (Ev W) :=
        if pressGrab ∧ dw.isNone then
          (st3.focusPath.filter env.focusedF).map (fun w2 => Ev.focusev w2 false)
        else []
      let st4 :=
        if pressGrab ∧ dw.isNone then { st3 with focusPath := [] } else st3
      match env.buttonH st4.mousePos button (decide (action = env.mousePress))
          st4.modifiers with
      | Except.error e => Outcome.aborted e
      | Except.ok b =>
        Outcome.ret (b, st4,
          synEvs ++ focusEvs ++
            [Ev.button none st4.mousePos button (decide (action = env.mousePress))
              st4.modifiers])

/-- `Screen::keyCallbackEvent`: stamp the timestamp, then dispatch through the
focus path inside the try block. -/
def keyCallbackEvent (env : Env W E) (now : Int) (st : ScreenState W)
    (key scancode action mods : Int) : EventResult W E :=
  let st1 := { st with lastInteraction := now }
  match keyboardEvent (fun w => env.keyWH w key scancode action mods) env.focusedF
      st1.focusPath with
  | Except.error e => Outcome.aborted e
  | Except.ok (b, tr) =>
    Outcome.ret (b, st1, tr.map (fun w => Ev.keyev w key scancode action mods))

/-- `Screen::charCallbackEvent`: stamp the timestamp, then dispatch the unicode
character through the focus path inside the try block. -/
def charCallbackEvent (env : Env W E) (now : Int) (st : ScreenState W)
    (codepoint : Nat) : EventResult W E :=
  let st1 := { st with lastInteraction := now }
  match keyboardCharacterEvent (fun w => env.charWH w codepoint) env.focusedF
      st1.focusPath with
  | Except.error e => Outcome.aborted e
  | Except.ok (b, tr) =>
    Outcome.ret (b, st1, tr.map (fun w => Ev.charev w codepoint))

/-- `Screen::dropCallbackEvent`: converts the raw filename array to a list of
strings and forwards it once to the tree's drop handler.  NOTE: unlike every
other callback, there is no try/catch here and no timestamp update — an
exception from the handler propagates to the caller (`Outcome.thrown`). -/
def dropCallbackEvent (env : Env W E) (st : ScreenState W)
    (files : List String) : EventResult W E :=
  match env.dropH files with
  | Except.error e => Outcome.thrown e
  | Except.ok b => Outcome.ret (b, st, [Ev.dropev files])

/-- `Screen::scrollCallbackEvent(x, y)`: stamp the timestamp; inside the try
block the modal gate may reject the event, otherwise the scroll event is
forwarded at the recorded mouse position. -/
def scrollCallbackEvent (env : Env W E) (now : Int) (st : ScreenState W)
    (sx sy : Int) : EventResult W E :=
  let st1 := { st with lastInteraction := now }
  if modalGate env st1 then Outcome.ret (false, st1, [])
  else
    match env.scrollH st1.mousePos (sx, sy) with
    | Except.error e => Outcome.aborted e
    | Except.ok b => Outcome.ret (b, st1, [Ev.scrollev st1.mousePos (sx, sy)])

/-- `Screen::resizeCallbackEvent(w, h, ratio)`.  The new size and pixel ratio are
stored FIRST; only then is the degenerate `(0, 0)` size checked, returning false
without stamping the timestamp and without forwarding anything; otherwise the
timestamp is stamped and the resize event forwarded inside the try block. -/
def resizeCallbackEvent (env : Env W E) (now : Int) (st : ScreenState W)
    (wd ht : Int) (ratio : Rat) : EventResult W E :=
  let st1 := { st with size := (wd, ht), pixelRatio := ratio }
  if st1.size = ((0 : Int), (0 : Int)) then Outcome.ret (false, st1, [])
  else
    let st2 := { st1 with lastInteraction := now }
    match env.resizeH st2.size with
    | Except.error e => Outcome.aborted e
    | Except.ok b => Outcome.ret (b, st2, [Ev.resizeev st2.size])

/-- `Screen::disposeWindow(window)`: clear the whole focus path if the window
occurs anywhere in it; null the drag-widget reference if the window is the
current drag target (the `mDragActive` flag is NOT touched by the source);
finally detach the window from the child sequence.  The detach step
(`Widget::removeChild`) is not part of the sources; modelled from the spec:
"finally detach it from the child sequence". -/
def disposeWindow (st : ScreenState W) (children : List W) (window : W) :
    ScreenState W × List W :=
  ({ st with
      focusPath := if window ∈ st.focusPath then [] else st.focusPath,
      dragWidget := if st.dragWidget = some window then none else st.dragWidget },
   children.filter (fun x => x != window))

end ScreenModel

section ClaimsScreen

variable {W E : Type} [DecidableEq W]

/-- A concrete oracle environment used by witnesses and counterexamples. -/
def envN : Env Nat Unit :=
  { screenSelf := 99
    findWidget := fun _ => none
    cursorOf := fun _ => 0
    parentAbs := fun _ => (0, 0)
    isWindow := fun _ => false
    modal := fun _ => false
    contains := fun _ _ => false
    focusedF := fun _ => true
    mousePress := 1
    mouseRelease := 0
    primaryButton := 0
    secondaryButton := 1
    dragH := fun _ _ _ _ _ => Except.ok true
    motionH := fun _ _ _ _ => Except.ok false
    buttonWH := fun _ _ _ _ _ => Except.ok false
    buttonH := fun _ _ _ _ => Except.ok false
    keyWH := fun _ _ _ _ _ => Except.ok false
    charWH := fun _ _ => Except.ok false
    dropH := fun _ => Except.ok false
    scrollH := fun _ _ => Except.ok false
    resizeH := fun _ => Except.ok true }

/-- A concrete screen state used by witnesses and counterexamples. -/
def stA : ScreenState Nat :=
  { mousePos := (3, 4)
    mouseState := 0
    modifiers := 0
    dragActive := false
    dragWidget := none
    focusPath := []
    lastInteraction := 3
    size := (5, 7)
    pixelRatio := 1
    cursor := 0 }

/-- Claim C4, corrected.  The claim says a `(0, 0)` resize "leaves the previously
recorded logical size … unchanged"; in the source `mSize` and `mPixelRatio` are
assigned BEFORE the degenerate-size check, so the early return leaves the
recorded size overwritten with `(0, 0)` (and the pixel ratio overwritten) — see
the counterexample.  The rest of the claim holds and is captured here: the event
returns false, is not forwarded to the widget tree (empty delivery trace), and
the `lastInteraction` timestamp is untouched — but the stored size ends up
`(0, 0)`, not the prior size. -/
theorem claim_C4_resize_zero (env : Env W E) (now : Int) (st : ScreenState W)
    (ratio : Rat) :
    resizeCallbackEvent env now st 0 0 ratio =
      Outcome.ret (false, { st with size := (0, 0), pixelRatio := ratio }, []) ∧
      ({ st with size := ((0 : Int), (0 : Int)), pixelRatio := ratio } :
        ScreenState W).lastInteraction = st.lastInteraction :=
  ⟨rfl, rfl⟩

/-- Counterexample to claim C4 as stated: the prior logical size `(5, 7)` is NOT
preserved across a `(0, 0)` resize — the stored size afterwards is `(0, 0)`. -/
theorem claim_C4_counterexample :
    resizeCallbackEvent envN 99 stA 0 0 2 =
      Outcome.ret (false, { stA with size := (0, 0), pixelRatio := 2 }, []) ∧
      ({ stA with size := ((0 : Int), (0 : Int)), pixelRatio := (2 : Rat) }).size ≠
        stA.size := by
  constructor
  · rfl
  · decide

/-- Claim C5, confirmed.  When the focus path has more than one entry, its
second-to-top entry is a modal window, and the recorded mouse position lies
outside that window, a mouse-button event is dropped: the callback returns false
with an empty delivery trace (no button event reaches the widget tree), and the
resulting state differs from the incoming one only in the stored modifiers and
the interaction timestamp — in particular the drag-active flag, the drag widget
and the focus path are unchanged. -/
theorem claim_C5_modal_gate (env : Env W E) (now : Int) (st : ScreenState W)
    (button : Nat) (action mods : Int) (win : W)
    (hlen : 1 < st.focusPath.length)
    (hwin : st.focusPath.get? (st.focusPath.length - 2) = some win)
    (hw : env.isWindow win = true) (hm : env.modal win = true)
    (hc : env.contains win st.mousePos = false) :
    mouseButtonCallbackEvent env now st button action mods =
      Outcome.ret (false, { st with modifiers := mods, lastInteraction := now }, []) ∧
      ({ st with modifiers := mods, lastInteraction := now } :
        ScreenState W).dragActive = st.dragActive ∧
      ({ st with modifiers := mods, lastInteraction := now } :
        ScreenState W).dragWidget = st.dragWidget ∧
      ({ st with modifiers := mods, lastInteraction := now } :
        ScreenState W).focusPath = st.focusPath := by
  have hgate : modalGate env { st with modifiers := mods, lastInteraction := now } = true := by
    unfold modalGate
    have hfp : ({ st with modifiers := mods, lastInteraction := now } :
        ScreenState W).focusPath = st.focusPath := rfl
    have hmp : ({ st with modifiers := mods, lastInteraction := now } :
        ScreenState W).mousePos = st.mousePos := rfl
    rw [hfp, hmp, if_pos hlen, hwin]
    show (env.isWindow win && env.modal win && !env.contains win st.mousePos) = true
    rw [hw, hm, hc]
    rfl
  refine ⟨?_, rfl, rfl, rfl⟩
  simp only [mouseButtonCallbackEvent, hgate, if_true]

/-- Witness for claim C5: focus path `[0, 1, 2]` whose second-to-top entry `1` is
a modal window not containing the mouse position; the press is dropped with only
modifiers and timestamp updated. -/
theorem claim_C5_witness :
    mouseButtonCallbackEvent
        { envN with isWindow := fun n => n == 1, modal := fun n => n == 1 } 7
        { stA with focusPath := [0, 1, 2] } 0 1 9 =
      Outcome.ret (false,
        { { stA with focusPath := [0, 1, 2] } with modifiers := 9, lastInteraction := 7 },
        []) ∧
      ({ { stA with focusPath := [0, 1, 2] } with modifiers := 9, lastInteraction := 7 } :
        ScreenState Nat).dragActive = ({ stA with focusPath := [0, 1, 2] } :
        ScreenState Nat).dragActive ∧
      ({ { stA with focusPath := [0, 1, 2] } with modifiers := 9, lastInteraction := 7 } :
        ScreenState Nat).dragWidget = ({ stA with focusPath := [0, 1, 2] } :
        ScreenState Nat).dragWidget ∧
      ({ { stA with focusPath := [0, 1, 2] } with modifiers := 9, lastInteraction := 7 } :
        ScreenState Nat).focusPath = ({ stA with focusPath := [0, 1, 2] } :
        ScreenState Nat).focusPath :=
  claim_C5_modal_gate { envN with isWindow := fun n => n == 1, modal := fun n => n == 1 }
    7 { stA with focusPath := [0, 1, 2] } 0 1 9 1 (by decide) rfl rfl rfl rfl

/-- Claim C6, confirmed.  A cursor move while a drag is active delivers a drag
event to the captured widget whose position is relative to the widget's parent
and whose delta is computed against the PREVIOUSLY recorded mouse position; the
generic motion event follows exactly when the drag handler declines; and the
recorded mouse position becomes the new (offset-adjusted) position only in the
final state, after both deliveries used the old one. -/
theorem claim_C6_drag_dispatch (env : Env W E) (now : Int) (st : ScreenState W)
    (x y : Int) (dw : W) (b c : Bool)
    (hact : st.dragActive = true) (hdw : st.dragWidget = some dw)
    (hdrag : env.dragH dw (vsub (x - 1, y - 2) (env.parentAbs dw))
        (vsub (x - 1, y - 2) st.mousePos) st.mouseState st.modifiers = Except.ok b)
    (hmot : env.motionH (x - 1, y - 2) (vsub (x - 1, y - 2) st.mousePos)
        st.mouseState st.modifiers = Except.ok c) :
    cursorPosCallbackEvent env now st x y =
      Outcome.ret (b || c,
        { st with lastInteraction := now, mousePos := (x - 1, y - 2) },
        Ev.drag dw (vsub (x - 1, y - 2) (env.parentAbs dw))
            (vsub (x - 1, y - 2) st.mousePos) st.mouseState st.modifiers ::
          (if b then []
           else [Ev.motion (x - 1, y - 2) (vsub (x - 1, y - 2) st.mousePos)
             st.mouseState st.modifiers])) := by
  obtain ⟨mp, ms, md, da, dwid, fp, li, sz, pr, cu⟩ := st
  dsimp only at hact hdw hdrag hmot ⊢
  subst hact
  subst hdw
  cases b with
  | true =>
    simp only [cursorPosCallbackEvent]
    rw [hdrag]
    rfl
  | false =>
    simp only [cursorPosCallbackEvent]
    rw [hdrag, hmot]
    rfl

/-- Witness for claim C6: widget `7` is being dragged, its handler accepts the
event, so no motion event follows; the mouse position updates to the adjusted
`(19, 28)` and the delta against the old position `(3, 4)` is `(16, 24)`. -/
theorem claim_C6_witness :
    cursorPosCallbackEvent envN 11 { stA with dragActive := true, dragWidget := some 7 }
        20 30 =
      Outcome.ret (true,
        { { stA with dragActive := true, dragWidget := some 7 } with
            lastInteraction := 11, mousePos := (19, 28) },
        [Ev.drag 7 (19, 28) (16, 24) 0 0]) :=
  claim_C6_drag_dispatch envN 11 { stA with dragActive := true, dragWidget := some 7 }
    20 30 7 true false rfl rfl rfl rfl

/-- Claim C8, corrected.  `disposeWindow` clears the whole focus path exactly when
the window occurs in it; it nulls the drag-widget reference when the window is
the drag target; it detaches the window from the child sequence, keeping every
other child; BUT — contrary to the claim's "clears the drag state (drag-active
flag, drag widget)" — the `mDragActive` flag is not modified by the source, so
after disposing the active drag target the screen is left drag-active with a
null drag widget; see the counterexample. -/
theorem claim_C8_disposeWindow (st : ScreenState W) (children : List W) (window : W) :
    (window ∈ st.focusPath → (disposeWindow st children window).1.focusPath = []) ∧
      (window ∉ st.focusPath →
        (disposeWindow st children window).1.focusPath = st.focusPath) ∧
      (st.dragWidget = some window →
        (disposeWindow st children window).1.dragWidget = none) ∧
      (st.dragWidget ≠ some window →
        (disposeWindow st children window).1.dragWidget = st.dragWidget) ∧
      (disposeWindow st children window).1.dragActive = st.dragActive ∧
      window ∉ (disposeWindow st children window).2 ∧
      (∀ x ∈ children, x ≠ window → x ∈ (disposeWindow st children window).2) := by
  refine ⟨?_, ?_, ?_, ?_, rfl, ?_, ?_⟩
  · intro hmem
    simp only [disposeWindow, if_pos hmem]
  · intro hmem
    simp only [disposeWindow, if_neg hmem]
  · intro hdr
    simp only [disposeWindow, if_pos hdr]
  · intro hdr
    simp only [disposeWindow, if_neg hdr]
  · intro hmem
    simp only [disposeWindow] at hmem
    rcases List.mem_filter.1 hmem with ⟨_, hne⟩
    simp at hne
  · intro x hx hne
    simp only [disposeWindow]
    exact List.mem_filter.2 ⟨hx, by simpa using hne⟩

/-- Witness for the amended claim C8: disposing window `0`, which is in the focus
path and is the drag target, empties the path, nulls the drag widget, leaves the
drag-active flag as it was, and removes `0` (and only `0`) from the children. -/
theorem claim_C8_witness :
    (disposeWindow
        { stA with focusPath := [0, 5], dragActive := true, dragWidget := some 0 }
        [0, 1] 0).1.focusPath = [] ∧
      (disposeWindow
        { stA with focusPath := [0, 5], dragActive := true, dragWidget := some 0 }
        [0, 1] 0).1.dragWidget = none ∧
      (disposeWindow
        { stA with focusPath := [0, 5], dragActive := true, dragWidget := some 0 }
        [0, 1] 0).1.dragActive =
        ({ stA with focusPath := [0, 5], dragActive := true, dragWidget := some 0 } :
          ScreenState Nat).dragActive ∧
      (0 : Nat) ∉ (disposeWindow
        { stA with focusPath := [0, 5], dragActive := true, dragWidget := some 0 }
        [0, 1] 0).2 :=
  ⟨(claim_C8_disposeWindow _ [0, 1] 0).1 (by decide),
   (claim_C8_disposeWindow _ [0, 1] 0).2.2.1 rfl,
   (claim_C8_disposeWindow _ [0, 1] 0).2.2.2.2.1,
   (claim_C8_disposeWindow _ [0, 1] 0).2.2.2.2.2.1⟩

/-- Counterexample to claim C8 as stated: after disposing the active drag target,
the drag-widget reference is nulled but the drag-active flag is STILL true — the
claim's "clears the drag state" (which per claim C5 comprises the drag-active
flag and the drag widget) does not hold for the flag. -/
theorem claim_C8_counterexample :
    (disposeWindow { stA with dragActive := true, dragWidget := some 0 }
        [0, 1] 0).1.dragWidget = none ∧
      ¬ ((disposeWindow { stA with dragActive := true, dragWidget := some 0 }
        [0, 1] 0).1.dragActive = false) := by
  constructor
  · rfl
  · decide

end ClaimsScreen

section ClaimsException

variable {W E : Type} [DecidableEq W]

/-- Claim C9, corrected.  The claim says EVERY per-event-category callback body
(cursor move, mouse button, key, character, drop, scroll, resize) catches
exceptions raised during tree delivery, reports them and terminates the process.
Six of the seven do (their bodies wrap delivery in try/catch that reports to
`std::cerr` and calls `abort()` — modelled as `Outcome.aborted`, never
`Outcome.thrown`), but `Screen::dropCallbackEvent` has NO try/catch at all: an
exception from the drop handler propagates to the caller — see the
counterexample.  Amended: for the cursor-move, mouse-button, key, character,
scroll and resize callbacks no handler exception ever propagates (first six
conjuncts); for the file-drop callback a handler exception always propagates
(last conjunct). -/
theorem claim_C9_exception_policy (env : Env W E) (now : Int) (st : ScreenState W) :
    (∀ x y e, cursorPosCallbackEvent env now st x y ≠ Outcome.thrown e) ∧
      (∀ button action mods e,
        mouseButtonCallbackEvent env now st button action mods ≠ Outcome.thrown e) ∧
      (∀ key scancode action mods e,
        keyCallbackEvent env now st key scancode action mods ≠ Outcome.thrown e) ∧
      (∀ cp e, charCallbackEvent env now st cp ≠ Outcome.thrown e) ∧
      (∀ sx sy e, scrollCallbackEvent env now st sx sy ≠ Outcome.thrown e) ∧
      (∀ wd ht ratio e, resizeCallbackEvent env now st wd ht ratio ≠ Outcome.thrown e) ∧
      (∀ files e, env.dropH files = Except.error e →
        dropCallbackEvent env st files = Outcome.thrown e) := by
  refine ⟨?_, ?_, ?_, ?_, ?_, ?_, ?_⟩
  · intro x y e h
    simp only [cursorPosCallbackEvent] at h
    repeat' split at h
    all_goals cases h
  · intro button action mods e h
    simp only [mouseButtonCallbackEvent] at h
    repeat' split at h
    all_goals cases h
  · intro key scancode action mods e h
    simp only [keyCallbackEvent] at h
    repeat' split at h
    all_goals cases h
  · intro cp e h
    simp only [charCallbackEvent] at h
    repeat' split at h
    all_goals cases h
  · intro sx sy e h
    simp only [scrollCallbackEvent] at h
    repeat' split at h
    all_goals cases h
  · intro wd ht ratio e h
    simp only [resizeCallbackEvent] at h
    repeat' split at h
    all_goals cases h
  · intro files e he
    unfold dropCallbackEvent
    rw [he]

/-- Counterexample to claim C9 as stated: a drop handler that throws makes the
exception escape `Screen::dropCallbackEvent` to the caller — the drop category
has no catch/report/abort wrapper. -/
theorem claim_C9_counterexample :
    dropCallbackEvent { envN with dropH := fun _ => Except.error () } stA ["a"] =
      Outcome.thrown () := rfl

/-- Witness for the amended claim C9 at concrete inputs: a cursor-move outcome is
never a propagated exception, while a throwing drop handler always propagates. -/
theorem claim_C9_witness :
    cursorPosCallbackEvent envN 5 stA 1 2 ≠ Outcome.thrown () ∧
      dropCallbackEvent { envN with dropH := fun _ => Except.error () } stA ["f"] =
        Outcome.thrown () :=
  ⟨(claim_C9_exception_policy envN 5 stA).1 1 2 (),
   (claim_C9_exception_policy { envN with dropH := fun _ => Except.error () } 5
      stA).2.2.2.2.2.2 ["f"] () rfl⟩

end ClaimsException

end NanoGui
